import Mathlib

/-!
Verification of the highlight-clip pipeline of the daglo-mcp repository
(`src/tools/video.ts` and `src/utils/{karaoke,content}.ts`).

Embedding conventions:
* JavaScript strings are `List Char`; JS numbers that carry timestamps or
  durations are `ℚ`; JS numbers used as character budgets / indices are `Int`
  (the tool schema passes plain numbers; the claims under study quantify over
  integral budgets).
* JS `while` loops are embedded as fuel-indexed recursive functions.  Every
  call site passes fuel that dominates the loop variant of the source loop, so
  the fueled function computes exactly what the source loop computes whenever
  the source loop terminates.  One loop (`splitLongWord`) can diverge in the
  source; its step relation is embedded separately (`slwStep` / `slwRun`) so
  that non-termination is expressible.
* Fallible external decoding (Node `zlib` inflate, `JSON.parse`) is abstracted
  by a `DecodeEnv` of total functions, since their internals are outside the
  repository.
-/

/-- JS whitespace class `\s` (the members that occur in transcripts). -/
def isWsChar (c : Char) : Bool :=
  c = ' ' || c = '\t' || c = '\n' || c = '\r' || c = '\x0b' || c = '\x0c' ||
  c = ' ' || c = '﻿'

/-- Embeds `String.prototype.trim`: drop whitespace from both ends. -/
def trimWs (s : List Char) : List Char :=
  ((s.dropWhile isWsChar).reverse.dropWhile isWsChar).reverse

/-- Scanner for `text.replace(/\s+/g, " ")`: `prevWs` records whether the
previous character belonged to a whitespace run already replaced. -/
def collapseAux (prevWs : Bool) : List Char → List Char
  | [] => []
  | c :: rest =>
    if isWsChar c then
      if prevWs then collapseAux true rest
      else ' ' :: collapseAux true rest
    else c :: collapseAux false rest

/-- Embeds `text.replace(/\s+/g, " ")`: collapse each maximal whitespace run
to one space. -/
def collapseWs (s : List Char) : List Char := collapseAux false s

/-- Embeds `String.prototype.split(sep)` for a one-character separator. -/
def splitChar (sep : Char) : List Char → List (List Char)
  | [] => [[]]
  | c :: rest =>
    if c = sep then [] :: splitChar sep rest
    else
      match splitChar sep rest with
      | [] => [[c]]
      | piece :: pieces => (c :: piece) :: pieces

/-- Embeds `s.slice(0, m)` (JS semantics for a possibly negative end index). -/
def jsSliceUpTo (m : Int) (s : List Char) : List Char :=
  if 0 ≤ m then s.take m.toNat else s.take ((s.length : Int) + m).toNat

/-- Embeds `s.slice(m)` (JS semantics for a possibly negative start index). -/
def jsSliceFrom (m : Int) (s : List Char) : List Char :=
  if 0 ≤ m then s.drop m.toNat else s.drop (max ((s.length : Int) + m) 0).toNat

/-- Embeds `s.slice(a, b)` for non-negative `a` (the only shape the pipeline uses
with a general end index). -/
def jsSliceGen (a b : Int) (s : List Char) : List Char :=
  let n : Int := s.length
  let a2 : Int := if a < 0 then max (n + a) 0 else min a n
  let b2 : Int := if b < 0 then max (n + b) 0 else min b n
  (s.drop a2.toNat).take (b2 - a2).toNat

/-- Word-level transcript token (`KaraokeToken` in `src/utils/karaoke.ts`). -/
structure KaraokeToken where
  text : List Char
  startTime : ℚ
  endTime : ℚ
deriving DecidableEq

/-- Sentence-level segment (`ScriptSegment` in `src/tools/video.ts`). -/
structure ScriptSegment where
  text : List Char
  startTime : ℚ
  endTime : ℚ
  tokens : List KaraokeToken
deriving DecidableEq

def segDur (s : ScriptSegment) : ℚ := s.endTime - s.startTime

def dfltSeg : ScriptSegment := ⟨[], 0, 0, []⟩

/-- The terminal punctuation class `/[?.!。！？]/` of
`extractSegmentsFromScript`. -/
def isTerminalPunct (c : Char) : Bool :=
  c = '?' || c = '.' || c = '!' || c = '。' || c = '！' || c = '？'

/-- Embeds the test `/[?.!。！？]/.test(token.text)`. -/
def hasTerminalPunct (s : List Char) : Bool := s.any isTerminalPunct

/-- The token-accumulation loop of `extractSegmentsFromScript`
(`src/tools/video.ts` lines 41-81): close a segment when a token text carries
terminal punctuation, flush a trailing partial segment when its trimmed text
is non-empty. -/
def punctLoop : List KaraokeToken → List ScriptSegment → List KaraokeToken →
    List Char → Option ℚ → Option ℚ → List ScriptSegment
  | [], acc, curToks, curText, st, en =>
    acc ++
      (match st, en with
       | some s, some e =>
         if trimWs curText ≠ [] then [⟨trimWs curText, s, e, curToks⟩] else []
       | _, _ => [])
  | tok :: rest, acc, curToks, curText, st, _ =>
    let st1 := match st with | none => some tok.startTime | some s => some s
    let curToks1 := curToks ++ [tok]
    let curText1 := curText ++ tok.text
    if hasTerminalPunct tok.text then
      punctLoop rest
        (acc ++ [⟨trimWs curText1, st1.getD 0, tok.endTime, curToks1⟩])
        [] [] none none
    else
      punctLoop rest acc curToks1 curText1 st1 (some tok.endTime)

/-- Punctuation-scoped segment builder over a flat token list. -/
def punctuationSegments (tokens : List KaraokeToken) : List ScriptSegment :=
  punctLoop tokens [] [] [] none none

/-- Fueled scanner for the non-overlapping, leftmost-first occurrence count of
the non-empty literal pattern `a :: ps`: after a hit the scan resumes past the
matched characters.  Each step consumes at least one character, so fuel
`s.length` suffices. -/
def countHitsAux (a : Char) (ps : List Char) : Nat → List Char → Nat
  | 0, _ => 0
  | _, [] => 0
  | fuel + 1, c :: rest =>
    if (a :: ps).isPrefixOf (c :: rest) then
      1 + countHitsAux a ps fuel (rest.drop ps.length)
    else countHitsAux a ps fuel rest

/-- Occurrence count of a non-empty literal pattern, as produced by a global
JS regex scan over an `escapeRegExp`-escaped keyword. -/
def countHits (a : Char) (ps : List Char) (s : List Char) : Nat :=
  countHitsAux a ps s.length s

/-- Embeds `text.match(new RegExp(escapeRegExp(pat), "g")).length` for a literal
pattern: an empty pattern matches once at every position (JS semantics). -/
def jsMatchCount (pat s : List Char) : Nat :=
  match pat with
  | [] => s.length + 1
  | a :: ps => countHits a ps s

/-- Embeds `keyword.toLowerCase()`. -/
def lowerStr (s : List Char) : List Char := s.map Char.toLower

/-- The keyword-scoring loop body of `selectHighlightSegments`: sum, over the
already-lowercased keywords, of the case-insensitive global match count in the
segment text. -/
def scoreText (normKws : List (List Char)) (text : List Char) : Nat :=
  normKws.foldl (fun acc k => acc + jsMatchCount k (lowerStr text)) 0

/-- Transient scored segment (`{ segment, index, score, density }`). -/
structure ScoredSegment where
  segment : ScriptSegment
  index : Nat
  score : Nat
  density : ℚ
deriving DecidableEq

/-- Embeds `segments.map((segment, index) => ...)` of `selectHighlightSegments`
lines 151-160. -/
def scoreSegments (segs : List ScriptSegment) (normKws : List (List Char)) :
    List ScoredSegment :=
  segs.enum.map fun p =>
    let score := scoreText normKws p.2.text
    let duration := segDur p.2
    { segment := p.2, index := p.1, score := score,
      density := if 0 < duration then (score : ℚ) / duration else 0 }

/-- Relation: `a` sorts at-or-before `b` under the comparator of lines 162-166:
higher density first, then higher score, then lower original index. -/
def scoredLE (a b : ScoredSegment) : Prop :=
  b.density < a.density ∨
    (a.density = b.density ∧
      (b.score < a.score ∨ (a.score = b.score ∧ a.index ≤ b.index)))

instance : DecidableRel scoredLE := fun a b => by
  unfold scoredLE; infer_instance

instance : IsTotal ScoredSegment scoredLE where
  total a b := by
    unfold scoredLE
    rcases lt_trichotomy a.density b.density with h | h | h
    · exact Or.inr (Or.inl h)
    · rcases lt_trichotomy a.score b.score with h2 | h2 | h2
      · exact Or.inr (Or.inr ⟨h.symm, Or.inl h2⟩)
      · rcases Nat.le_total a.index b.index with h3 | h3
        · exact Or.inl (Or.inr ⟨h, Or.inr ⟨h2, h3⟩⟩)
        · exact Or.inr (Or.inr ⟨h.symm, Or.inr ⟨h2.symm, h3⟩⟩)
      · exact Or.inl (Or.inr ⟨h, Or.inl h2⟩)
    · exact Or.inl (Or.inl h)

instance : IsTrans ScoredSegment scoredLE where
  trans a b c hab hbc := by
    unfold scoredLE at hab hbc ⊢
    rcases hab with h | ⟨hd, h⟩
    · rcases hbc with h2 | ⟨hd2, _⟩
      · exact Or.inl (h2.trans h)
      · exact Or.inl (hd2 ▸ h)
    · rcases hbc with h2 | ⟨hd2, h3⟩
      · exact Or.inl (by rw [hd]; exact h2)
      · refine Or.inr ⟨hd.trans hd2, ?_⟩
        rcases h with hs | ⟨hs, hi⟩
        · rcases h3 with hs2 | ⟨hs2, _⟩
          · exact Or.inl (hs2.trans hs)
          · exact Or.inl (hs2 ▸ hs)
        · rcases h3 with hs2 | ⟨hs2, hi2⟩
          · exact Or.inl (by rw [hs]; exact hs2)
          · exact Or.inr ⟨hs.trans hs2, hi.trans hi2⟩

/-- Embeds `scoredSegments.sort(...)` — with the comparator of lines 162-166 the sort
result is the unique stably-sorted permutation, which `insertionSort`
computes. -/
def sortScored (segs : List ScriptSegment) (normKws : List (List Char)) :
    List ScoredSegment :=
  List.insertionSort scoredLE (scoreSegments segs normKws)

/-- The greedy bidirectional growth loop of `selectHighlightSegments`
(identical at lines 178-208 and 226-256).  State: `sel` is the selection,
`total` the accumulated duration sum, `l` is `leftIndex + 1` (so `0 < l`
is the source's `leftIndex >= 0`), `r` is `rightIndex`.  Each continuing
iteration decreases `l` or increases `r`, so the source loop runs at most
`segs.length` iterations; callers pass fuel `segs.length + 1`, which makes
this fueled function compute exactly what the source loop computes. -/
def growIter (segs : List ScriptSegment) (target : ℚ) :
    Nat → List ScriptSegment → ℚ → Nat → Nat → List ScriptSegment
  | 0, sel, _, _, _ => sel
  | fuel + 1, sel, total, l, r =>
    if total < target ∧ (0 < l ∨ r < segs.length) then
      if 0 < l ∧ total + segDur (segs.getD (l - 1) dfltSeg) ≤ target then
        let lseg := segs.getD (l - 1) dfltSeg
        let total1 := total + segDur lseg
        if r < segs.length ∧ total1 < target ∧
            total1 + segDur (segs.getD r dfltSeg) ≤ target then
          growIter segs target fuel ((lseg :: sel) ++ [segs.getD r dfltSeg])
            (total1 + segDur (segs.getD r dfltSeg)) (l - 1) (r + 1)
        else
          growIter segs target fuel (lseg :: sel) total1 (l - 1) r
      else
        if r < segs.length ∧ total < target ∧
            total + segDur (segs.getD r dfltSeg) ≤ target then
          growIter segs target fuel (sel ++ [segs.getD r dfltSeg])
            (total + segDur (segs.getD r dfltSeg)) l (r + 1)
        else sel
    else sel

/-- The selected contiguous run of segments with its time range. -/
structure HighlightWindow where
  segments : List ScriptSegment
  startTime : ℚ
  endTime : ℚ
deriving DecidableEq

/-- Window bounds from the final selection (lines 210-215 / 258-263). -/
def windowOf (sel : List ScriptSegment) : HighlightWindow :=
  let s : ℚ := match sel with | [] => 0 | a :: _ => a.startTime
  { segments := sel, startTime := s,
    endTime := match sel.getLast? with | none => s | some a => a.endTime }

def dummyScored : ScoredSegment := ⟨dfltSeg, 0, 0, 0⟩

/-- Embeds `selectHighlightSegments` (`src/tools/video.ts` lines 139-264). -/
def selectHighlightSegments (segs : List ScriptSegment) (targetMinutes : ℚ)
    (keywords : List (List Char)) : HighlightWindow :=
  if segs = [] then ⟨[], 0, 0⟩ else
  let target := targetMinutes * 60
  let normKws := keywords.map lowerStr
  let sorted := sortScored segs normKws
  if sorted = [] ∨ (sorted.headD dummyScored).score = 0 then
    let mid := segs.length / 2
    let seed := segs.getD mid dfltSeg
    windowOf
      (growIter segs target (segs.length + 1) [seed] (segDur seed) mid (mid + 1))
  else
    let best := sorted.headD dummyScored
    windowOf
      (growIter segs target (segs.length + 1) [best.segment]
        (segDur best.segment) best.index (best.index + 1))

/-- Scale one token (`applyTimeScale` inner map). -/
def scaleToken (scale : ℚ) (t : KaraokeToken) : KaraokeToken :=
  { t with startTime := t.startTime * scale, endTime := t.endTime * scale }

/-- Scale one segment and its tokens. -/
def scaleSegment (scale : ℚ) (s : ScriptSegment) : ScriptSegment :=
  { s with
      startTime := s.startTime * scale
      endTime := s.endTime * scale
      tokens := s.tokens.map (scaleToken scale) }

/-- Embeds `applyTimeScale` (lines 125-137): identity when `scale === 1`. -/
def applyTimeScale (segs : List ScriptSegment) (scale : ℚ) :
    List ScriptSegment :=
  if scale = 1 then segs else segs.map (scaleSegment scale)

/-- Embeds `segments.reduce((max, s) => Math.max(max, s.endTime), 0)`. -/
def maxSegmentEnd (segs : List ScriptSegment) : ℚ :=
  segs.foldl (fun m s => max m s.endTime) 0

/-- The unit-mismatch detector of `registerVideoTools` (lines 606-610):
`videoDuration = none` models a non-finite `ffprobe` result. -/
def scaleNeeded (videoDuration : Option ℚ) (maxEnd : ℚ) : ℚ :=
  match videoDuration with
  | some d => if maxEnd > max (d * 10) 10000 then 1 / 1000 else 1
  | none => 1

/-- Embeds `applyTimeScale(segments, scaleNeeded)` (line 611). -/
def scaledSegmentsAll (videoDuration : Option ℚ) (segs : List ScriptSegment) :
    List ScriptSegment :=
  applyTimeScale segs (scaleNeeded videoDuration (maxSegmentEnd segs))

/-- Window selection consumes the rescaled transcript (lines 611-617). -/
def pipelineSelect (videoDuration : Option ℚ) (segs : List ScriptSegment)
    (targetMinutes : ℚ) (keywords : List (List Char)) : HighlightWindow :=
  selectHighlightSegments (scaledSegmentsAll videoDuration segs)
    targetMinutes keywords

/-- The body of `splitLongWord` (lines 274-285) as a fueled loop.  For
`1 ≤ maxLength` every iteration shortens `remaining` by at least one
character, so fuel `w.length` reproduces the source loop exactly; for
`maxLength ≤ 0` the source loop diverges (see `slwRun`). -/
def splitLongWordAux (m : Int) : Nat → List Char → List (List Char)
  | 0, _ => []
  | fuel + 1, rem =>
    if (rem.length : Int) > m then
      jsSliceUpTo m rem :: splitLongWordAux m fuel (jsSliceFrom m rem)
    else if rem.length > 0 then [rem] else []

/-- Embeds `splitLongWord(word, maxLength)`. -/
def splitLongWord (w : List Char) (m : Int) : List (List Char) :=
  splitLongWordAux m w.length w

/-- One iteration of the `while` loop of `splitLongWord`: `some` means the
loop body ran once, `none` means the loop guard failed. -/
def slwStep (m : Int) (st : List (List Char) × List Char) :
    Option (List (List Char) × List Char) :=
  if (st.2.length : Int) > m then
    some (st.1 ++ [jsSliceUpTo m st.2], jsSliceFrom m st.2)
  else none

/-- Run the `splitLongWord` loop for at most `fuel` iterations: `some parts`
means the source loop exits within `fuel` iterations and the function returns
`parts`; `none` means the loop is still running after `fuel` iterations. -/
def slwRun (m : Int) :
    Nat → List (List Char) × List Char → Option (List (List Char))
  | 0, st =>
    match slwStep m st with
    | none => some (st.1 ++ if st.2.length > 0 then [st.2] else [])
    | some _ => none
  | fuel + 1, st =>
    match slwStep m st with
    | none => some (st.1 ++ if st.2.length > 0 then [st.2] else [])
    | some st2 => slwRun m fuel st2

/-- The word-packing loop body of `wrapSubtitleText` (lines 306-327); the
state is `(lines, currentLine)`. -/
def wrapStep (m : Int) (st : List (List Char) × List Char)
    (word : List Char) : List (List Char) × List Char :=
  if st.2 = [] then
    if (word.length : Int) > m then (st.1 ++ splitLongWord word m, [])
    else (st.1, word)
  else
    if (st.2.length : Int) + 1 + word.length ≤ m then
      (st.1, st.2 ++ ' ' :: word)
    else
      if (word.length : Int) > m then
        (st.1 ++ [st.2] ++ splitLongWord word m, [])
      else (st.1 ++ [st.2], word)

/-- The wrapped lines produced by `wrapSubtitleText` (before `join("\n")`). -/
def wrapLines (text : List Char) (m : Int) : List (List Char) :=
  let normalized := trimWs (collapseWs text)
  if normalized = [] then []
  else if normalized.any isWsChar then
    let p := (splitChar ' ' normalized).foldl (wrapStep m) ([], [])
    p.1 ++ (if p.2 ≠ [] then [p.2] else [])
  else splitLongWord normalized m

/-- Embeds `wrapSubtitleText` (lines 287-331). -/
def wrapSubtitleText (text : List Char) (m : Int) : List Char :=
  List.intercalate ['\n'] (wrapLines text m)

/-- The chunking loop of `splitTokenByMaxChars` (lines 340-347).  For
`1 ≤ maxChars` every iteration advances `offset` by at least one character,
so fuel `tok.text.length` reproduces the source loop exactly. -/
def sliceChunksAux (tok : KaraokeToken) (perChar : ℚ) (maxChars : Int) :
    Nat → Nat → List KaraokeToken
  | 0, _ => []
  | fuel + 1, offset =>
    if offset < tok.text.length then
      let chunk := jsSliceGen (offset : Int) ((offset : Int) + maxChars) tok.text
      ⟨chunk, tok.startTime + perChar * (offset : ℚ),
        tok.startTime + perChar * ((offset : ℚ) + (chunk.length : ℚ))⟩ ::
        sliceChunksAux tok perChar maxChars fuel (offset + chunk.length)
    else []

/-- Embeds `splitTokenByMaxChars` (lines 333-350). -/
def splitTokenByMaxChars (tok : KaraokeToken) (maxChars : Int) :
    List KaraokeToken :=
  if (tok.text.length : Int) ≤ maxChars then [tok]
  else
    let duration := tok.endTime - tok.startTime
    let perChar : ℚ :=
      if 0 < tok.text.length then duration / (tok.text.length : ℚ) else 0
    sliceChunksAux tok perChar maxChars tok.text.length 0

/-- Accumulator of the character-budget resplitting loop of
`splitSegmentsByMaxChars` (lines 369-407). -/
structure ResplitState where
  results : List ScriptSegment
  curToks : List KaraokeToken
  curText : List Char
  st : Option ℚ
  en : Option ℚ
deriving DecidableEq

/-- The `flush` closure (lines 374-386): push the accumulated segment unless
its trimmed text is empty or a bound is missing; reset only after a push. -/
def resplitFlush (s : ResplitState) : ResplitState :=
  match s.st, s.en with
  | some a, some b =>
    if trimWs s.curText = [] then s
    else
      { results := s.results ++ [⟨trimWs s.curText, a, b, s.curToks⟩],
        curToks := [], curText := [], st := none, en := none }
  | _, _ => s

/-- The per-part body of the resplitting loop (lines 390-404). -/
def resplitStep (maxChars : Int) (s : ResplitState) (part : KaraokeToken) :
    ResplitState :=
  let s1 := if s.curText = [] then { s with st := some part.startTime } else s
  let s2 :=
    if (s1.curText.length : Int) + part.text.length > maxChars ∧
        s1.curText ≠ [] then
      { resplitFlush s1 with st := some part.startTime }
    else s1
  let s3 :=
    { s2 with
        curText := s2.curText ++ part.text
        en := some part.endTime
        curToks := s2.curToks ++ [part] }
  if (s3.curText.length : Int) ≥ maxChars then resplitFlush s3 else s3

/-- Resplit one over-budget segment along its token parts (lines 359-407). -/
def resplitSegment (maxChars : Int) (seg : ScriptSegment) :
    List ScriptSegment :=
  if (seg.text.length : Int) ≤ maxChars then [seg]
  else
    let toks :=
      if seg.tokens ≠ [] then seg.tokens
      else [⟨seg.text, seg.startTime, seg.endTime⟩]
    let parts := toks.flatMap (fun t => splitTokenByMaxChars t maxChars)
    (resplitFlush (parts.foldl (resplitStep maxChars) ⟨[], [], [], none, none⟩)).results

/-- Embeds `splitSegmentsByMaxChars` (lines 352-411): the `maxChars <= 0` guard
returns the input unchanged. -/
def splitSegmentsByMaxChars (segs : List ScriptSegment) (maxChars : Int) :
    List ScriptSegment :=
  if maxChars ≤ 0 then segs else segs.flatMap (resplitSegment maxChars)

/-- Embeds `subtitleMaxLineLength = args.subtitleMaxLineLength ?? 42`
(`registerVideoTools` line 481). -/
def resolveSubtitleMaxLineLength (arg : Option Int) : Int := arg.getD 42

/-- JSON-like transcript document tree. -/
inductive Json where
  | str : List Char → Json
  | num : ℚ → Json
  | bool : Bool → Json
  | null : Json
  | arr : List Json → Json
  | obj : List (List Char × Json) → Json

/-- JS property access `node.key` on a decoded JSON value. -/
def Json.getField : Json → List Char → Option Json
  | .obj fields, k => (fields.find? (fun p => p.1 = k)).map (fun p => p.2)
  | _, _ => none

/-- One child of a paragraph: emit a token when it is a karaoke node with a
string text; missing or non-numeric `s` / `e` default to `0`
(`extractSegmentsFromScript` lines 32-38). -/
def childToken (child : Json) : List KaraokeToken :=
  match child.getField ("type".data), child.getField ("text".data) with
  | some (.str ty), some (.str tx) =>
    if ty = "karaoke".data then
      [⟨tx,
        (match child.getField ("s".data) with | some (.num q) => q | _ => 0),
        (match child.getField ("e".data) with | some (.num q) => q | _ => 0)⟩]
    else []
  | _, _ => []

/-- Tokens of one paragraph node; a paragraph without an array `children`
field is skipped (lines 28-31). -/
def paragraphTokens (p : Json) : List KaraokeToken :=
  match p.getField ("children".data) with
  | some (.arr children) => children.flatMap childToken
  | _ => []

/-- The flat token list of `extractSegmentsFromScript` lines 21-39:
`script.editorState?.root?.children`, else no tokens. -/
def scriptTokens (script : Json) : List KaraokeToken :=
  match script.getField ("editorState".data) with
  | some es =>
    match es.getField ("root".data) with
    | some root =>
      match root.getField ("children".data) with
      | some (.arr paragraphs) => paragraphs.flatMap paragraphTokens
      | _ => []
    | _ => []
  | _ => []

/-- Embeds `extractSegmentsFromScript` (lines 19-81). -/
def extractSegmentsFromScript (script : Json) : List ScriptSegment :=
  punctuationSegments (scriptTokens script)

/-- Abstraction of the external decoding collaborators: `inflate` models
`decodeZlibBase64Content` (a total function that returns its input on
failure), `parse` models `JSON.parse` wrapped in `try/catch`. -/
structure DecodeEnv where
  inflate : List Char → List Char
  parse : List Char → Option Json

/-- Embeds `decodeScriptItem` (`src/utils/content.ts` lines 25-34): `null` for a
missing or non-string payload, for an empty inflate result, and for a parse
failure. -/
def decodeScriptItem (env : DecodeEnv) (v : Option Json) : Option Json :=
  match v with
  | some (.str s) =>
    if s = [] then none
    else
      let inflated := env.inflate s
      if inflated = [] then none else env.parse inflated
  | _ => none

/-- External media side effects of the tool handler, in source order. -/
inductive MediaEffect where
  | downloadVideo : MediaEffect
  | ffmpegCut : MediaEffect
  | writeSrtFile : MediaEffect
  | ffmpegBurn : MediaEffect
deriving DecidableEq

/-- Embeds `scripts.flatMap(extractSegmentsFromScript)` over the decoded pages
(`registerVideoTools` lines 550-574). -/
def collectedSegments (env : DecodeEnv) (pages : List (Option Json)) :
    List ScriptSegment :=
  (pages.filterMap (decodeScriptItem env)).flatMap extractSegmentsFromScript

/-- The transcript guard and effect ordering of the tool handler
(`registerVideoTools` lines 574-667): `pages` are the `item` payloads of the
fetched script pages; the external media effects run only after the segment
guard passes. -/
def highlightRun (env : DecodeEnv) (pages : List (Option Json)) :
    List MediaEffect × Except (List Char) Unit :=
  if collectedSegments env pages = [] then
    ([], Except.error ("No segments found in script.".data))
  else
    ([MediaEffect.downloadVideo, MediaEffect.ffmpegCut,
      MediaEffect.writeSrtFile, MediaEffect.ffmpegBurn], Except.ok ())

/-! ### Basic lemmas about the growth loop and window construction -/

/-- Consecutive segments are temporally adjacent: each one starts exactly
where its predecessor ends. -/
def chainAdjacent (segs : List ScriptSegment) : Prop :=
  ∀ i, i + 1 < segs.length →
    (segs.getD (i + 1) dfltSeg).startTime = (segs.getD i dfltSeg).endTime

/-- Contiguous index range `[l, r)` of the segment list. -/
def sliceIdx (segs : List ScriptSegment) (l r : Nat) : List ScriptSegment :=
  (segs.drop l).take (r - l)

/-- Sum of selected segment durations (the loop's `totalDuration`). -/
def sumDur (sel : List ScriptSegment) : ℚ := (sel.map segDur).sum

/-- The texts of the maximal token groups punctuation splitting closes: a
group ends at each token whose text carries terminal punctuation, and a final
(possibly empty) group collects the remainder. -/
def groupTexts (cur : List Char) : List KaraokeToken → List (List Char)
  | [] => [cur]
  | t :: rest =>
    if hasTerminalPunct t.text then (cur ++ t.text) :: groupTexts [] rest
    else groupTexts (cur ++ t.text) rest

/-- The claim's formula for a segment score: the total, over the keyword
list, of the case-insensitive occurrence counts of each keyword taken as a
literal (regex-escaped) substring of the segment text. -/
def claimScore (kws : List (List Char)) (text : List Char) : Nat :=
  (kws.map fun k => jsMatchCount (lowerStr k) (lowerStr text)).sum

def dfltTok : KaraokeToken := ⟨[], 0, 0⟩

/-- Character offset of the `i`-th chunk: total text length of the chunks
before it. -/
def cumLen (ps : List KaraokeToken) (i : Nat) : Nat :=
  ((ps.take i).map (fun t => t.text.length)).sum

/-! ### Concrete fixtures used by counterexamples and witnesses -/

/-- Two keyword-scored segments separated by a 99-second silence gap. -/
def c1CeSegs : List ScriptSegment :=
  [⟨[], 0, 1, []⟩, ⟨['k'], 100, 101, []⟩]

/-- Ten one-second segments with no keyword content. -/
def exTenSegs : List ScriptSegment :=
  [⟨[], 0, 1, []⟩, ⟨[], 1, 2, []⟩, ⟨[], 2, 3, []⟩, ⟨[], 3, 4, []⟩,
   ⟨[], 4, 5, []⟩, ⟨[], 5, 6, []⟩, ⟨[], 6, 7, []⟩, ⟨[], 7, 8, []⟩,
   ⟨[], 8, 9, []⟩, ⟨[], 9, 10, []⟩]

theorem sumDur_nil : sumDur [] = 0 := rfl

theorem sumDur_cons (a : ScriptSegment) (s : List ScriptSegment) :
    sumDur (a :: s) = segDur a + sumDur s := by
  simp [sumDur]

theorem sumDur_append (s t : List ScriptSegment) :
    sumDur (s ++ t) = sumDur s + sumDur t := by
  simp [sumDur]

theorem growIter_ne_nil (segs : List ScriptSegment) (target : ℚ) :
    ∀ fuel sel total l r, sel ≠ [] →
      growIter segs target fuel sel total l r ≠ [] := by
  intro fuel
  induction fuel with
  | zero => intro sel total l r h; simpa [growIter] using h
  | succ n ih =>
    intro sel total l r h
    rw [growIter]
    split
    · split
      · dsimp only
        split
        · exact ih _ _ _ _ (by simp)
        · exact ih _ _ _ _ (by simp)
      · split
        · exact ih _ _ _ _ (by simp [h])
        · exact h
    · exact h

/-- C9 helper: the window always carries its selection verbatim. -/
theorem windowOf_segments (sel : List ScriptSegment) :
    (windowOf sel).segments = sel := rfl

/-- C9: for every non-empty input, `selectHighlightSegments` returns at least
one segment: both paths seed the selection and the growth loop only adds. -/
theorem c9_nonempty_selection (segs : List ScriptSegment) (tmin : ℚ)
    (keywords : List (List Char)) (hne : segs ≠ []) :
    (selectHighlightSegments segs tmin keywords).segments ≠ [] := by
  rw [selectHighlightSegments]
  simp only [if_neg hne]
  split
  · exact growIter_ne_nil _ _ _ _ _ _ _ (by simp)
  · exact growIter_ne_nil _ _ _ _ _ _ _ (by simp)

/-- C9 witness. -/
theorem c9_nonempty_selection_witness :
    ([dfltSeg] : List ScriptSegment) ≠ [] ∧
      (selectHighlightSegments [dfltSeg] 1 []).segments ≠ [] :=
  ⟨by simp, c9_nonempty_selection [dfltSeg] 1 [] (by simp)⟩

/-- C5: timestamps are rescaled by the fixed factor `0.001`, uniformly over
every segment's and token's start/end time, exactly when the probed media
duration is finite and the maximum segment end-time exceeds
`max(duration × 10, 10000)`; otherwise the factor is `1` and the segment list
passes through unchanged. -/
theorem c5_time_scale (videoDuration : Option ℚ) (segs : List ScriptSegment) :
    ((∃ d, videoDuration = some d ∧
        max (d * 10) 10000 < maxSegmentEnd segs) →
      scaleNeeded videoDuration (maxSegmentEnd segs) = 1 / 1000 ∧
        scaledSegmentsAll videoDuration segs =
          segs.map (scaleSegment (1 / 1000))) ∧
    ((¬ ∃ d, videoDuration = some d ∧
        max (d * 10) 10000 < maxSegmentEnd segs) →
      scaleNeeded videoDuration (maxSegmentEnd segs) = 1 ∧
        scaledSegmentsAll videoDuration segs = segs) ∧
    (∀ sc s, (scaleSegment sc s).startTime = s.startTime * sc ∧
      (scaleSegment sc s).endTime = s.endTime * sc ∧
      (scaleSegment sc s).tokens = s.tokens.map (scaleToken sc)) ∧
    (∀ sc t, (scaleToken sc t).startTime = t.startTime * sc ∧
      (scaleToken sc t).endTime = t.endTime * sc) := by
  refine ⟨?_, ?_, fun sc s => ⟨rfl, rfl, rfl⟩, fun sc t => ⟨rfl, rfl⟩⟩
  · rintro ⟨d, rfl, hgt⟩
    have h1 : scaleNeeded (some d) (maxSegmentEnd segs) = 1 / 1000 := by
      simp [scaleNeeded, hgt]
    refine ⟨h1, ?_⟩
    rw [scaledSegmentsAll, h1, applyTimeScale]
    norm_num
  · intro hno
    have h1 : scaleNeeded videoDuration (maxSegmentEnd segs) = 1 := by
      match videoDuration with
      | none => rfl
      | some d =>
        have : ¬ max (d * 10) 10000 < maxSegmentEnd segs :=
          fun hc => hno ⟨d, rfl, hc⟩
        simp [scaleNeeded, this]
    exact ⟨h1, by rw [scaledSegmentsAll, h1, applyTimeScale, if_pos rfl]⟩

/-- C5 witness: a transcript whose maximum end-time is `20000` against a
probed duration of `1` second triggers the `0.001` rescale. -/
theorem c5_time_scale_witness :
    (∃ d, (some (1 : ℚ)) = some d ∧
        max (d * 10) 10000 < maxSegmentEnd [⟨[], 0, 20000, []⟩]) ∧
      scaledSegmentsAll (some 1) [⟨[], 0, 20000, []⟩] =
        [⟨[], 0, 20, []⟩] := by
  have h := (c5_time_scale (some 1) [⟨[], 0, 20000, []⟩]).1
    ⟨1, rfl, by norm_num [maxSegmentEnd]⟩
  refine ⟨⟨1, rfl, by norm_num [maxSegmentEnd]⟩, ?_⟩
  rw [h.2]
  norm_num [scaleSegment]

/-- C8: a transcript page payload that is absent or not a string decodes to
`null`; one whose inflated text fails to parse as JSON decodes to `null`
instead of raising; and when every decoded page contributes zero segments the
handler fails with the error `No segments found in script.` while the list of
attempted external media effects is empty. -/
theorem c8_decode_degrades :
    (∀ (env : DecodeEnv) (v : Option Json),
      (∀ s, v ≠ some (Json.str s)) → decodeScriptItem env v = none) ∧
    (∀ (env : DecodeEnv) (s : List Char),
      env.parse (env.inflate s) = none →
        decodeScriptItem env (some (Json.str s)) = none) ∧
    (∀ (env : DecodeEnv) (pages : List (Option Json)),
      (∀ p ∈ pages, ∀ j, decodeScriptItem env p = some j →
          extractSegmentsFromScript j = []) →
        highlightRun env pages =
          ([], Except.error ("No segments found in script.".data))) := by
  refine ⟨?_, ?_, ?_⟩
  · intro env v hv
    match v with
    | none => rfl
    | some (.str s) => exact absurd rfl (hv s)
    | some (.num q) => rfl
    | some (.bool b) => rfl
    | some .null => rfl
    | some (.arr a) => rfl
    | some (.obj o) => rfl
  · intro env s hparse
    rw [decodeScriptItem]
    split
    · rfl
    · simp only [hparse]
      split <;> rfl
  · intro env pages hzero
    have hcoll : collectedSegments env pages = [] := by
      rw [collectedSegments]
      rw [List.flatMap_eq_nil_iff]
      intro j hj
      rcases List.mem_filterMap.mp hj with ⟨p, hp, hdec⟩
      exact hzero p hp j hdec
    rw [highlightRun, if_pos hcoll]

/-- C8 witness: a page list of one absent payload, one numeric payload and one
string payload under a parser that always fails yields the descriptive error
and no media effects. -/
theorem c8_decode_degrades_witness :
    (∀ p ∈ ([none, some (Json.num 3), some (Json.str ('x' :: []))] :
        List (Option Json)), ∀ j,
      decodeScriptItem ⟨id, fun _ => none⟩ p = some j →
        extractSegmentsFromScript j = []) ∧
      highlightRun ⟨id, fun _ => none⟩
          [none, some (Json.num 3), some (Json.str ('x' :: []))] =
        ([], Except.error ("No segments found in script.".data)) := by
  have hz : ∀ p ∈ ([none, some (Json.num 3), some (Json.str ('x' :: []))] :
      List (Option Json)), ∀ j,
      decodeScriptItem ⟨id, fun _ => none⟩ p = some j →
        extractSegmentsFromScript j = [] := by
    intro p hp j hj
    fin_cases hp <;> simp [decodeScriptItem] at hj
  exact ⟨hz, c8_decode_degrades.2.2 ⟨id, fun _ => none⟩ _ hz⟩

theorem sliceIdx_self (segs : List ScriptSegment) (l : Nat) :
    sliceIdx segs l l = [] := by
  simp [sliceIdx]

theorem sliceIdx_cons (segs : List ScriptSegment) (l r : Nat)
    (hl : l < segs.length) (hlr : l < r) :
    sliceIdx segs l r = segs.getD l dfltSeg :: sliceIdx segs (l + 1) r := by
  rw [sliceIdx, List.drop_eq_getElem_cons hl, List.getD_eq_getElem segs dfltSeg hl]
  have h1 : r - l = (r - (l + 1)) + 1 := by omega
  rw [h1, List.take_succ_cons]
  rfl

theorem sliceIdx_single (segs : List ScriptSegment) (l : Nat)
    (hl : l < segs.length) :
    sliceIdx segs l (l + 1) = [segs.getD l dfltSeg] := by
  rw [sliceIdx_cons segs l (l + 1) hl (Nat.lt_succ_self l), sliceIdx_self]

theorem sliceIdx_concat (segs : List ScriptSegment) (l r : Nat)
    (hlr : l ≤ r) (hr : r < segs.length) :
    sliceIdx segs l (r + 1) = sliceIdx segs l r ++ [segs.getD r dfltSeg] := by
  rw [sliceIdx, sliceIdx]
  have h1 : r + 1 - l = (r - l) + 1 := by omega
  rw [h1, List.take_succ]
  congr 1
  rw [List.getElem?_drop]
  have h2 : l + (r - l) = r := by omega
  rw [h2, List.getElem?_eq_getElem hr, List.getD_eq_getElem segs dfltSeg hr]
  rfl

/-- Master invariant of the greedy growth loop: starting from a contiguous
slice `[l, r)` whose duration sum is `total`, the loop returns a wider
contiguous slice `[l2, r2)`; its duration sum stays within the budget unless
the loop never accepted an extension. -/
theorem growIter_spec (segs : List ScriptSegment) (target : ℚ) :
    ∀ (fuel : Nat) (sel : List ScriptSegment) (total : ℚ) (l r : Nat),
      l < r → r ≤ segs.length → sel = sliceIdx segs l r →
      total = sumDur sel →
      ∃ l2 r2, l2 ≤ l ∧ r ≤ r2 ∧ r2 ≤ segs.length ∧
        growIter segs target fuel sel total l r = sliceIdx segs l2 r2 ∧
        (sumDur (sliceIdx segs l2 r2) ≤ target ∨ (l2 = l ∧ r2 = r)) := by
  intro fuel
  induction fuel with
  | zero =>
    intro sel total l r hlr hr hsel _
    exact ⟨l, r, le_refl l, le_refl r, hr, by rw [growIter, hsel],
      Or.inr ⟨rfl, rfl⟩⟩
  | succ n ih =>
    intro sel total l r hlr hr hsel htot
    rw [growIter]
    by_cases hcond : total < target ∧ (0 < l ∨ r < segs.length)
    · rw [if_pos hcond]
      by_cases hleft : 0 < l ∧ total + segDur (segs.getD (l - 1) dfltSeg) ≤ target
      · rw [if_pos hleft]
        dsimp only
        have hl1 : l - 1 < segs.length := by omega
        have hconsL : segs.getD (l - 1) dfltSeg :: sel = sliceIdx segs (l - 1) r := by
          have e : l - 1 + 1 = l := by omega
          rw [hsel, sliceIdx_cons segs (l - 1) r hl1 (by omega), e]
        have hsumL : total + segDur (segs.getD (l - 1) dfltSeg) =
            sumDur (segs.getD (l - 1) dfltSeg :: sel) := by
          rw [sumDur_cons, htot]; ring
        by_cases hright : r < segs.length ∧
            total + segDur (segs.getD (l - 1) dfltSeg) < target ∧
            total + segDur (segs.getD (l - 1) dfltSeg) +
              segDur (segs.getD r dfltSeg) ≤ target
        · rw [if_pos hright]
          have hsel2 : (segs.getD (l - 1) dfltSeg :: sel) ++ [segs.getD r dfltSeg] =
              sliceIdx segs (l - 1) (r + 1) := by
            rw [hconsL, ← sliceIdx_concat segs (l - 1) r (by omega) hright.1]
          have hsum2 : total + segDur (segs.getD (l - 1) dfltSeg) +
              segDur (segs.getD r dfltSeg) =
              sumDur ((segs.getD (l - 1) dfltSeg :: sel) ++ [segs.getD r dfltSeg]) := by
            rw [sumDur_append, ← hsumL, sumDur_cons, sumDur_nil]; ring
          obtain ⟨l2, r2, h1, h2, h3, h4, h5⟩ :=
            ih _ _ (l - 1) (r + 1) (by omega) (by omega) hsel2 hsum2
          refine ⟨l2, r2, by omega, by omega, h3, h4, ?_⟩
          rcases h5 with h5 | ⟨hh1, hh2⟩
          · exact Or.inl h5
          · subst hh1; subst hh2
            exact Or.inl (by rw [← hsel2, ← hsum2]; exact hright.2.2)
        · rw [if_neg hright]
          obtain ⟨l2, r2, h1, h2, h3, h4, h5⟩ :=
            ih _ _ (l - 1) r (by omega) hr hconsL hsumL
          refine ⟨l2, r2, by omega, h2, h3, h4, ?_⟩
          rcases h5 with h5 | ⟨hh1, hh2⟩
          · exact Or.inl h5
          · subst hh1; subst hh2
            exact Or.inl (by rw [← hconsL, ← hsumL]; exact hleft.2)
      · rw [if_neg hleft]
        by_cases hright : r < segs.length ∧ total < target ∧
            total + segDur (segs.getD r dfltSeg) ≤ target
        · rw [if_pos hright]
          have hsel2 : sel ++ [segs.getD r dfltSeg] = sliceIdx segs l (r + 1) := by
            rw [hsel, ← sliceIdx_concat segs l r (by omega) hright.1]
          have hsum2 : total + segDur (segs.getD r dfltSeg) =
              sumDur (sel ++ [segs.getD r dfltSeg]) := by
            rw [sumDur_append, htot, sumDur_cons, sumDur_nil]; ring
          obtain ⟨l2, r2, h1, h2, h3, h4, h5⟩ :=
            ih _ _ l (r + 1) (by omega) (by omega) hsel2 hsum2
          refine ⟨l2, r2, h1, by omega, h3, h4, ?_⟩
          rcases h5 with h5 | ⟨hh1, hh2⟩
          · exact Or.inl h5
          · subst hh1; subst hh2
            exact Or.inl (by rw [← hsel2, ← hsum2]; exact hright.2.2)
        · rw [if_neg hright]
          exact ⟨l, r, le_refl l, le_refl r, hr, hsel, Or.inr ⟨rfl, rfl⟩⟩
    · rw [if_neg hcond]
      exact ⟨l, r, le_refl l, le_refl r, hr, hsel, Or.inr ⟨rfl, rfl⟩⟩

theorem headD_mem {α : Type} (l : List α) (d : α) (h : l ≠ []) :
    l.headD d ∈ l := by
  cases l with
  | nil => exact absurd rfl h
  | cons a t => simp

theorem scoreSegments_length (segs : List ScriptSegment)
    (normKws : List (List Char)) :
    (scoreSegments segs normKws).length = segs.length := by
  simp [scoreSegments]

theorem sortScored_perm (segs : List ScriptSegment)
    (normKws : List (List Char)) :
    List.Perm (sortScored segs normKws) (scoreSegments segs normKws) :=
  List.perm_insertionSort _ _

theorem sortScored_ne_nil (segs : List ScriptSegment)
    (normKws : List (List Char)) (h : segs ≠ []) :
    sortScored segs normKws ≠ [] := by
  intro hc
  have hlen := (sortScored_perm segs normKws).length_eq
  rw [hc, scoreSegments_length] at hlen
  exact h (List.eq_nil_of_length_eq_zero hlen.symm)

theorem mem_scoreSegments {segs : List ScriptSegment}
    {normKws : List (List Char)} {e : ScoredSegment}
    (he : e ∈ scoreSegments segs normKws) :
    e.index < segs.length ∧ e.segment = segs.getD e.index dfltSeg ∧
      e.score = scoreText normKws e.segment.text ∧
      e.density =
        (if 0 < segDur e.segment then (e.score : ℚ) / segDur e.segment
         else 0) := by
  rw [scoreSegments, List.mem_map] at he
  obtain ⟨p, hp, rfl⟩ := he
  have hg := List.mem_enum_iff_getElem?.mp hp
  have hlt : p.1 < segs.length := by
    by_contra hge
    rw [List.getElem?_eq_none (by omega)] at hg
    exact Option.noConfusion hg
  have hval : segs[p.1] = p.2 := by
    rw [List.getElem?_eq_getElem hlt] at hg
    exact Option.some_inj.mp hg
  refine ⟨hlt, ?_, rfl, rfl⟩
  rw [List.getD_eq_getElem segs dfltSeg hlt, hval]


theorem adjacent_span (segs : List ScriptSegment) (hadj : chainAdjacent segs) :
    ∀ l r, l < r → r ≤ segs.length →
      (segs.getD (r - 1) dfltSeg).endTime -
          (segs.getD l dfltSeg).startTime =
        sumDur (sliceIdx segs l r) := by
  intro l r
  induction r with
  | zero => omega
  | succ m ihm =>
    intro hlr hr
    by_cases hm : l < m
    · rw [sliceIdx_concat segs l m (by omega) (by omega), sumDur_append,
        ← ihm hm (by omega), sumDur_cons, sumDur_nil]
      have hadj2 := hadj (m - 1) (by omega)
      have e1 : m - 1 + 1 = m := by omega
      rw [e1] at hadj2
      have e2 : m + 1 - 1 = m := by omega
      rw [e2, segDur]
      rw [hadj2]
      ring
    · have hlm : l = m := by omega
      subst hlm
      rw [sliceIdx_single segs l (by omega), sumDur_cons, sumDur_nil]
      have e2 : l + 1 - 1 = l := by omega
      rw [e2, segDur]
      ring

theorem windowOf_single (a : ScriptSegment) :
    (windowOf [a]).startTime = a.startTime ∧
      (windowOf [a]).endTime = a.endTime := by
  constructor <;> rfl

theorem windowOf_slice_start (segs : List ScriptSegment) (l r : Nat)
    (hl : l < segs.length) (hlr : l < r) :
    (windowOf (sliceIdx segs l r)).startTime =
      (segs.getD l dfltSeg).startTime := by
  rw [sliceIdx_cons segs l r hl hlr]
  rfl

theorem windowOf_slice_end (segs : List ScriptSegment) (l r : Nat)
    (hlr : l < r) (hr : r ≤ segs.length) :
    (windowOf (sliceIdx segs l r)).endTime =
      (segs.getD (r - 1) dfltSeg).endTime := by
  have e : r = (r - 1) + 1 := by omega
  rw [e, sliceIdx_concat segs l (r - 1) (by omega) (by omega)]
  have e2 : r - 1 + 1 - 1 = r - 1 := by omega
  rw [e2]
  simp [windowOf, List.getLast?_concat]

/-- The primary path of `selectHighlightSegments`: with a non-empty input and
a nonzero best score, the result is the grown window around the top-ranked
segment. -/
theorem selectHighlight_primary_eq (segs : List ScriptSegment) (tmin : ℚ)
    (keywords : List (List Char)) (hne : segs ≠ [])
    (hbest :
      ((sortScored segs (keywords.map lowerStr)).headD dummyScored).score ≠ 0) :
    selectHighlightSegments segs tmin keywords =
      windowOf (growIter segs (tmin * 60) (segs.length + 1)
        [((sortScored segs (keywords.map lowerStr)).headD dummyScored).segment]
        (segDur
          ((sortScored segs (keywords.map lowerStr)).headD dummyScored).segment)
        ((sortScored segs (keywords.map lowerStr)).headD dummyScored).index
        (((sortScored segs (keywords.map lowerStr)).headD dummyScored).index
          + 1)) := by
  rw [selectHighlightSegments, if_neg hne]
  dsimp only
  rw [if_neg]
  push_neg
  exact ⟨sortScored_ne_nil _ _ hne, hbest⟩

/-- The fallback path of `selectHighlightSegments`: with a best score of zero,
the result is the grown window around the temporal midpoint segment. -/
theorem selectHighlight_fallback_eq (segs : List ScriptSegment) (tmin : ℚ)
    (keywords : List (List Char)) (hne : segs ≠ [])
    (hcond : sortScored segs (keywords.map lowerStr) = [] ∨
      ((sortScored segs (keywords.map lowerStr)).headD dummyScored).score = 0) :
    selectHighlightSegments segs tmin keywords =
      windowOf (growIter segs (tmin * 60) (segs.length + 1)
        [segs.getD (segs.length / 2) dfltSeg]
        (segDur (segs.getD (segs.length / 2) dfltSeg))
        (segs.length / 2) (segs.length / 2 + 1)) := by
  rw [selectHighlightSegments, if_neg hne]
  dsimp only
  rw [if_pos hcond]

/-- Both paths seed a one-segment slice at a valid index and grow it; this
packages `growIter_spec` for the windows `selectHighlightSegments` builds. -/
theorem selectHighlight_grow_spec (segs : List ScriptSegment) (tmin : ℚ)
    (keywords : List (List Char)) (c : Nat) (hc : c < segs.length)
    (heq : selectHighlightSegments segs tmin keywords =
      windowOf (growIter segs (tmin * 60) (segs.length + 1)
        [segs.getD c dfltSeg] (segDur (segs.getD c dfltSeg)) c (c + 1))) :
    ∃ l2 r2, l2 ≤ c ∧ c < r2 ∧ r2 ≤ segs.length ∧
      selectHighlightSegments segs tmin keywords =
        windowOf (sliceIdx segs l2 r2) ∧
      (sumDur (sliceIdx segs l2 r2) ≤ tmin * 60 ∨
        (l2 = c ∧ r2 = c + 1)) := by
  obtain ⟨l2, r2, h1, h2, h3, h4, h5⟩ :=
    growIter_spec segs (tmin * 60) (segs.length + 1)
      [segs.getD c dfltSeg] (segDur (segs.getD c dfltSeg)) c (c + 1)
      (by omega) (by omega) (sliceIdx_single segs c hc).symm
      (by rw [sumDur_cons, sumDur_nil]; ring)
  exact ⟨l2, r2, h1, by omega, h3, by rw [heq, h4], h5⟩

/-- C1 (amended): on the primary path the *sum* of the selected segments'
durations stays within the budget unless the window is the seed alone and the
seed exceeds the budget; the window *span* `endTime − startTime` obeys the
same bound additionally when consecutive input segments are temporally
adjacent. -/
theorem c1_duration_budget (segs : List ScriptSegment) (tmin : ℚ)
    (keywords : List (List Char)) (hne : segs ≠ [])
    (hbest :
      ((sortScored segs (keywords.map lowerStr)).headD dummyScored).score ≠ 0) :
    (sumDur (selectHighlightSegments segs tmin keywords).segments ≤
        tmin * 60 ∨
      ((selectHighlightSegments segs tmin keywords).segments =
          [((sortScored segs (keywords.map lowerStr)).headD
              dummyScored).segment] ∧
        tmin * 60 <
          segDur ((sortScored segs (keywords.map lowerStr)).headD
            dummyScored).segment)) ∧
    (chainAdjacent segs →
      ((selectHighlightSegments segs tmin keywords).endTime -
          (selectHighlightSegments segs tmin keywords).startTime ≤
            tmin * 60 ∨
        ((selectHighlightSegments segs tmin keywords).segments =
            [((sortScored segs (keywords.map lowerStr)).headD
                dummyScored).segment] ∧
          tmin * 60 <
            (selectHighlightSegments segs tmin keywords).endTime -
              (selectHighlightSegments segs tmin keywords).startTime))) := by
  have hmem : (sortScored segs (keywords.map lowerStr)).headD dummyScored ∈
      scoreSegments segs (keywords.map lowerStr) :=
    (sortScored_perm segs (keywords.map lowerStr)).subset
      (headD_mem _ _ (sortScored_ne_nil _ _ hne))
  obtain ⟨hidx, hseg, _, _⟩ := mem_scoreSegments hmem
  have heq := selectHighlight_primary_eq segs tmin keywords hne hbest
  rw [hseg] at heq
  obtain ⟨l2, r2, h1, h2, h3, h4, h5⟩ :=
    selectHighlight_grow_spec segs tmin keywords _ hidx heq
  have hsegs : (selectHighlightSegments segs tmin keywords).segments =
      sliceIdx segs l2 r2 := by
    rw [h4, windowOf_segments]
  have hl2len : l2 < segs.length := by omega
  constructor
  · rcases h5 with h5 | ⟨e1, e2⟩
    · exact Or.inl (by rw [hsegs]; exact h5)
    · subst e1; subst e2
      by_cases hd : segDur ((sortScored segs (keywords.map lowerStr)).headD
          dummyScored).segment ≤ tmin * 60
      · refine Or.inl ?_
        rw [hsegs, sliceIdx_single segs _ hidx, sumDur_cons, sumDur_nil,
          ← hseg]
        linarith
      · refine Or.inr ⟨?_, lt_of_not_le hd⟩
        rw [hsegs, sliceIdx_single segs _ hidx, ← hseg]
  · intro hadj
    have hspan : (selectHighlightSegments segs tmin keywords).endTime -
        (selectHighlightSegments segs tmin keywords).startTime =
          sumDur (sliceIdx segs l2 r2) := by
      rw [h4, windowOf_slice_start segs l2 r2 hl2len (by omega),
        windowOf_slice_end segs l2 r2 (by omega) h3]
      exact adjacent_span segs hadj l2 r2 (by omega) h3
    rcases h5 with h5 | ⟨e1, e2⟩
    · exact Or.inl (by rw [hspan]; exact h5)
    · subst e1; subst e2
      by_cases hd : sumDur
          (sliceIdx segs
            ((sortScored segs (keywords.map lowerStr)).headD dummyScored).index
            (((sortScored segs (keywords.map lowerStr)).headD
              dummyScored).index + 1)) ≤ tmin * 60
      · exact Or.inl (by rw [hspan]; exact hd)
      · refine Or.inr ⟨?_, by rw [hspan]; exact lt_of_not_le hd⟩
        rw [hsegs, sliceIdx_single segs _ hidx, ← hseg]

/-- C1 counterexample: with keyword `k`, target 1 minute, and a 99-second gap
between an unscored segment and the best-scoring segment, the loop accepts the
left neighbour (sum of durations 2 ≤ 60) yet the returned window spans
`101 − 0 = 101 > 60` seconds while containing two segments, so the claimed
span bound fails outside its stated exception. -/
theorem c1_duration_budget_counterexample :
    0 < ((sortScored c1CeSegs ([['k']].map lowerStr)).headD dummyScored).score ∧
      1 * 60 <
        (selectHighlightSegments c1CeSegs 1 [['k']]).endTime -
          (selectHighlightSegments c1CeSegs 1 [['k']]).startTime ∧
      (selectHighlightSegments c1CeSegs 1 [['k']]).segments.length = 2 := by
  norm_num [c1CeSegs, selectHighlightSegments, sortScored, scoreSegments,
    scoreText, lowerStr, jsMatchCount, countHits, countHitsAux, segDur,
    List.insertionSort, List.orderedInsert, scoredLE, dummyScored, dfltSeg,
    growIter, windowOf, List.isPrefixOf]
  simp only [List.cons_ne_nil, reduceIte]
  norm_num

/-- C1 witness: a single keyword-matching one-second segment under a 1-minute
budget satisfies both amended bounds. -/
theorem c1_duration_budget_witness :
    (([⟨['k'], 0, 1, []⟩] : List ScriptSegment) ≠ [] ∧
      ((sortScored [⟨['k'], 0, 1, []⟩]
          ([['k']].map lowerStr)).headD dummyScored).score ≠ 0) ∧
      (sumDur (selectHighlightSegments [⟨['k'], 0, 1, []⟩] 1 [['k']]).segments ≤
          1 * 60 ∨
        ((selectHighlightSegments [⟨['k'], 0, 1, []⟩] 1 [['k']]).segments =
            [((sortScored [⟨['k'], 0, 1, []⟩]
                ([['k']].map lowerStr)).headD dummyScored).segment] ∧
          1 * 60 <
            segDur ((sortScored [⟨['k'], 0, 1, []⟩]
              ([['k']].map lowerStr)).headD dummyScored).segment)) := by
  have hne : ([⟨['k'], 0, 1, []⟩] : List ScriptSegment) ≠ [] := by simp
  have hsc : ((sortScored [⟨['k'], 0, 1, []⟩]
      ([['k']].map lowerStr)).headD dummyScored).score ≠ 0 := by
    norm_num [sortScored, scoreSegments, scoreText, lowerStr, jsMatchCount,
      countHits, countHitsAux, segDur, List.insertionSort, List.orderedInsert,
      scoredLE, dummyScored, List.isPrefixOf]
  exact ⟨⟨hne, hsc⟩, (c1_duration_budget [⟨['k'], 0, 1, []⟩] 1 [['k']] hne hsc).1⟩

theorem sliceIdx_length (segs : List ScriptSegment) (l r : Nat)
    (hr : r ≤ segs.length) : (sliceIdx segs l r).length = r - l := by
  rw [sliceIdx]
  simp only [List.length_take, List.length_drop]
  omega

theorem sliceIdx_getD_mem (segs : List ScriptSegment) :
    ∀ r l i, l ≤ i → i < r → r ≤ segs.length →
      segs.getD i dfltSeg ∈ sliceIdx segs l r := by
  intro r
  induction r with
  | zero => intro l i h1 h2 h3; omega
  | succ m ih =>
    intro l i h1 h2 h3
    rcases Nat.lt_or_ge i m with him | him
    · rw [sliceIdx_concat segs l m (by omega) (by omega)]
      exact List.mem_append_left _ (ih l i h1 him (by omega))
    · have hieq : i = m := by omega
      subst hieq
      rw [sliceIdx_concat segs l i (by omega) (by omega)]
      exact List.mem_append_right _ (by simp)

/-- With no keyword match anywhere, `selectHighlightSegments` takes the
fallback branch and grows a contiguous, budget-constrained window around the
temporal midpoint segment. -/
theorem fallback_window_spec (segs : List ScriptSegment) (tmin : ℚ)
    (kws : List (List Char)) (hne : segs ≠ [])
    (hzero : ∀ seg ∈ segs, scoreText (kws.map lowerStr) seg.text = 0) :
    ∃ l r, l ≤ segs.length / 2 ∧ segs.length / 2 < r ∧ r ≤ segs.length ∧
      selectHighlightSegments segs tmin kws = windowOf (sliceIdx segs l r) ∧
      (sumDur (sliceIdx segs l r) ≤ tmin * 60 ∨
        (l = segs.length / 2 ∧ r = segs.length / 2 + 1)) := by
  have hlenpos : 0 < segs.length := List.length_pos.mpr hne
  have hcond : sortScored segs (kws.map lowerStr) = [] ∨
      ((sortScored segs (kws.map lowerStr)).headD dummyScored).score = 0 := by
    by_cases hs : sortScored segs (kws.map lowerStr) = []
    · exact Or.inl hs
    · refine Or.inr ?_
      have hmem := (sortScored_perm segs (kws.map lowerStr)).subset
        (headD_mem _ dummyScored hs)
      obtain ⟨hidx, hseg, hscore, _⟩ := mem_scoreSegments hmem
      rw [hscore]
      apply hzero
      rw [hseg, List.getD_eq_getElem segs dfltSeg hidx]
      exact List.getElem_mem hidx
  exact selectHighlight_grow_spec segs tmin kws _
    (Nat.div_lt_self hlenpos one_lt_two)
    (selectHighlight_fallback_eq segs tmin kws hne hcond)

/-- C2: when every segment scores zero, the selection is a contiguous window
containing the temporal midpoint segment, grown under the duration budget; on
the ten one-second-segment transcript with a two-second target the window
contains the midpoint segment, is non-empty, has total duration (and span)
at most two seconds, and is strictly smaller than the full transcript. -/
theorem c2_zero_score_fallback :
    (∀ (segs : List ScriptSegment) (tmin : ℚ) (kws : List (List Char)),
      segs ≠ [] →
      (∀ seg ∈ segs, scoreText (kws.map lowerStr) seg.text = 0) →
      segs.getD (segs.length / 2) dfltSeg ∈
          (selectHighlightSegments segs tmin kws).segments ∧
        (∃ l r, l ≤ segs.length / 2 ∧ segs.length / 2 < r ∧
          r ≤ segs.length ∧
          (selectHighlightSegments segs tmin kws).segments =
            sliceIdx segs l r) ∧
        (sumDur (selectHighlightSegments segs tmin kws).segments ≤
            tmin * 60 ∨
          (selectHighlightSegments segs tmin kws).segments =
            [segs.getD (segs.length / 2) dfltSeg])) ∧
    (exTenSegs.getD (exTenSegs.length / 2) dfltSeg ∈
        (selectHighlightSegments exTenSegs (1 / 30) []).segments ∧
      (selectHighlightSegments exTenSegs (1 / 30) []).segments ≠ [] ∧
      sumDur (selectHighlightSegments exTenSegs (1 / 30) []).segments ≤ 2 ∧
      (selectHighlightSegments exTenSegs (1 / 30) []).endTime -
          (selectHighlightSegments exTenSegs (1 / 30) []).startTime ≤ 2 ∧
      (selectHighlightSegments exTenSegs (1 / 30) []).segments.length <
        exTenSegs.length) := by
  have hgen : ∀ (segs : List ScriptSegment) (tmin : ℚ)
      (kws : List (List Char)), segs ≠ [] →
      (∀ seg ∈ segs, scoreText (kws.map lowerStr) seg.text = 0) →
      segs.getD (segs.length / 2) dfltSeg ∈
          (selectHighlightSegments segs tmin kws).segments ∧
        (∃ l r, l ≤ segs.length / 2 ∧ segs.length / 2 < r ∧
          r ≤ segs.length ∧
          (selectHighlightSegments segs tmin kws).segments =
            sliceIdx segs l r) ∧
        (sumDur (selectHighlightSegments segs tmin kws).segments ≤
            tmin * 60 ∨
          (selectHighlightSegments segs tmin kws).segments =
            [segs.getD (segs.length / 2) dfltSeg]) := by
    intro segs tmin kws hne hzero
    obtain ⟨l, r, h1, h2, h3, h4, h5⟩ :=
      fallback_window_spec segs tmin kws hne hzero
    have hsegs : (selectHighlightSegments segs tmin kws).segments =
        sliceIdx segs l r := by rw [h4, windowOf_segments]
    refine ⟨?_, ⟨l, r, h1, h2, h3, hsegs⟩, ?_⟩
    · rw [hsegs]
      exact sliceIdx_getD_mem segs r l _ h1 h2 h3
    · rcases h5 with h5 | ⟨e1, e2⟩
      · exact Or.inl (by rw [hsegs]; exact h5)
      · subst e1; subst e2
        refine Or.inr ?_
        rw [hsegs, sliceIdx_single segs _ (Nat.div_lt_self
          (List.length_pos.mpr hne) one_lt_two)]
  refine ⟨hgen, ?_⟩
  have hne10 : exTenSegs ≠ [] := by simp [exTenSegs]
  have hzero10 : ∀ seg ∈ exTenSegs,
      scoreText (([] : List (List Char)).map lowerStr) seg.text = 0 :=
    fun seg _ => rfl
  have hlen10 : exTenSegs.length = 10 := by simp [exTenSegs]
  have htimes : ∀ i, i < 10 →
      (exTenSegs.getD i dfltSeg).startTime = (i : ℚ) ∧
      (exTenSegs.getD i dfltSeg).endTime = (i : ℚ) + 1 := by
    intro i hi
    interval_cases i <;> constructor <;> norm_num [exTenSegs]
  have hadj : chainAdjacent exTenSegs := by
    intro i hi
    rw [hlen10] at hi
    rw [(htimes (i + 1) (by omega)).1, (htimes i (by omega)).2]
    push_cast
    ring
  obtain ⟨l, r, h1, h2, h3, h4, h5⟩ :=
    fallback_window_spec exTenSegs (1 / 30) [] hne10 hzero10
  have hsegs : (selectHighlightSegments exTenSegs (1 / 30) []).segments =
      sliceIdx exTenSegs l r := by rw [h4, windowOf_segments]
  have hmid : exTenSegs.length / 2 = 5 := by rw [hlen10]
  have hsum2 : sumDur (sliceIdx exTenSegs l r) ≤ 2 := by
    rcases h5 with h5 | ⟨e1, e2⟩
    · have htarget : (1 : ℚ) / 30 * 60 = 2 := by norm_num
      rw [htarget] at h5
      exact h5
    · subst e1; subst e2
      rw [sliceIdx_single exTenSegs _ (by omega), sumDur_cons, sumDur_nil,
        segDur, hmid, (htimes 5 (by norm_num)).1, (htimes 5 (by norm_num)).2]
      norm_num
  have hspan : (selectHighlightSegments exTenSegs (1 / 30) []).endTime -
      (selectHighlightSegments exTenSegs (1 / 30) []).startTime =
        sumDur (sliceIdx exTenSegs l r) := by
    rw [h4, windowOf_slice_start exTenSegs l r (by omega) (by omega),
      windowOf_slice_end exTenSegs l r (by omega) h3]
    exact adjacent_span exTenSegs hadj l r (by omega) h3
  have hrl2 : r - l ≤ 2 := by
    have hq : ((r : ℚ) - 1 + 1) - l ≤ 2 := by
      have he := (htimes (r - 1) (by omega)).2
      have hs := (htimes l (by omega)).1
      have hcast : ((r - 1 : ℕ) : ℚ) = (r : ℚ) - 1 := by
        have : 1 ≤ r := by omega
        push_cast [this]
        ring
      have := adjacent_span exTenSegs hadj l r (by omega) h3
      rw [he, hs, hcast] at this
      rw [this]
      exact hsum2
    have hq2 : (r : ℚ) - l ≤ 2 := by linarith
    have hlr : l ≤ r := by omega
    have : ((r - l : ℕ) : ℚ) ≤ ((2 : ℕ) : ℚ) := by
      push_cast [hlr]
      linarith
    exact_mod_cast this
  refine ⟨?_, ?_, ?_, ?_, ?_⟩
  · rw [hsegs]
    exact sliceIdx_getD_mem exTenSegs r l _ h1 h2 h3
  · rw [hsegs]
    have : (sliceIdx exTenSegs l r).length = r - l :=
      sliceIdx_length exTenSegs l r h3
    intro hc
    rw [hc] at this
    simp at this
    omega
  · rw [hsegs]; exact hsum2
  · rw [hspan]; exact hsum2
  · rw [hsegs, sliceIdx_length exTenSegs l r h3, hlen10]
    omega

/-- C2 witness. -/
theorem c2_zero_score_fallback_witness :
    (([dfltSeg] : List ScriptSegment) ≠ []) ∧
      (([dfltSeg] : List ScriptSegment).getD
          (([dfltSeg] : List ScriptSegment).length / 2) dfltSeg ∈
          (selectHighlightSegments [dfltSeg] 1 []).segments ∧
        (∃ l r, l ≤ ([dfltSeg] : List ScriptSegment).length / 2 ∧
          ([dfltSeg] : List ScriptSegment).length / 2 < r ∧
          r ≤ ([dfltSeg] : List ScriptSegment).length ∧
          (selectHighlightSegments [dfltSeg] 1 []).segments =
            sliceIdx [dfltSeg] l r) ∧
        (sumDur (selectHighlightSegments [dfltSeg] 1 []).segments ≤ 1 * 60 ∨
          (selectHighlightSegments [dfltSeg] 1 []).segments =
            [([dfltSeg] : List ScriptSegment).getD
              (([dfltSeg] : List ScriptSegment).length / 2) dfltSeg])) :=
  ⟨by simp, c2_zero_score_fallback.1 [dfltSeg] 1 [] (by simp)
    (fun seg _ => rfl)⟩

theorem trimWs_sublist (s : List Char) : (trimWs s).Sublist s := by
  rw [trimWs]
  have h1 : (s.dropWhile isWsChar).Sublist s := List.dropWhile_sublist isWsChar
  have h2 : ((s.dropWhile isWsChar).reverse.dropWhile isWsChar).Sublist
      (s.dropWhile isWsChar).reverse := List.dropWhile_sublist isWsChar
  have h3 := h2.reverse
  rw [List.reverse_reverse] at h3
  exact h3.trans h1

theorem count_dropWhile_of_not (s : List Char) (c : Char)
    (hc : isWsChar c = false) :
    (s.dropWhile isWsChar).count c = s.count c := by
  conv_rhs => rw [← List.takeWhile_append_dropWhile (p := isWsChar) (l := s)]
  rw [List.count_append]
  have hz : (s.takeWhile isWsChar).count c = 0 := by
    rw [List.count_eq_zero]
    intro hmem
    have hw := List.mem_takeWhile_imp hmem
    rw [hc] at hw
    exact Bool.noConfusion hw
  omega

theorem count_trimWs_of_not (s : List Char) (c : Char)
    (hc : isWsChar c = false) :
    (trimWs s).count c = s.count c := by
  rw [trimWs, List.count_reverse, count_dropWhile_of_not _ _ hc,
    List.count_reverse, count_dropWhile_of_not _ _ hc]

/-- Unrolling of the punctuation loop: the segment texts it appends are the
trimmed group texts of the pending accumulator followed by the remaining
tokens. -/
theorem punctLoop_texts :
    ∀ (toks : List KaraokeToken) (acc : List ScriptSegment)
      (curToks : List KaraokeToken) (curText : List Char)
      (st en : Option ℚ),
      (trimWs curText ≠ [] → (∃ a, st = some a) ∧ (∃ b, en = some b)) →
      ((punctLoop toks acc curToks curText st en).map
          (fun s => s.text)).flatten =
        ((acc.map (fun s => s.text)).flatten) ++
          ((groupTexts curText toks).map trimWs).flatten := by
  intro toks
  induction toks with
  | nil =>
    intro acc curToks curText st en hH
    simp only [punctLoop, groupTexts]
    by_cases ht : trimWs curText = []
    · match st, en with
      | none, none => simp [ht]
      | none, some b => simp [ht]
      | some a, none => simp [ht]
      | some a, some b => simp [ht]
    · obtain ⟨⟨a, ha⟩, ⟨b, hb⟩⟩ := hH ht
      subst ha; subst hb
      simp [ht]
  | cons tok rest ih =>
    intro acc curToks curText st en hH
    simp only [punctLoop]
    by_cases hp : hasTerminalPunct tok.text
    · rw [if_pos hp]
      rw [ih _ _ _ _ _ (fun h => absurd rfl h)]
      rw [groupTexts, if_pos hp]
      simp [List.append_assoc]
    · rw [if_neg hp]
      rw [ih _ _ _ _ _ ?_]
      · rw [groupTexts, if_neg hp]
      · intro _
        refine ⟨?_, ⟨tok.endTime, rfl⟩⟩
        cases st with
        | none => exact ⟨tok.startTime, rfl⟩
        | some a => exact ⟨a, rfl⟩

/-- The group texts concatenate to the pending text plus all token texts. -/
theorem groupTexts_flatten :
    ∀ (toks : List KaraokeToken) (cur : List Char),
      (groupTexts cur toks).flatten =
        cur ++ (toks.map (fun t => t.text)).flatten := by
  intro toks
  induction toks with
  | nil => intro cur; simp [groupTexts]
  | cons tok rest ih =>
    intro cur
    rw [groupTexts]
    by_cases hp : hasTerminalPunct tok.text
    · rw [if_pos hp]
      simp [ih, List.append_assoc]
    · rw [if_neg hp]
      simp [ih, List.append_assoc]

theorem flatten_map_trim_sublist (gs : List (List Char)) :
    ((gs.map trimWs).flatten).Sublist gs.flatten := by
  induction gs with
  | nil => simp
  | cons g rest ih =>
    simp only [List.map_cons, List.flatten_cons]
    exact (trimWs_sublist g).append ih

theorem count_flatten_map_trim (gs : List (List Char)) (c : Char)
    (hc : isWsChar c = false) :
    ((gs.map trimWs).flatten).count c = gs.flatten.count c := by
  induction gs with
  | nil => rfl
  | cons g rest ih =>
    simp only [List.map_cons, List.flatten_cons, List.count_append,
      count_trimWs_of_not g c hc, ih]

/-- C3 (amended): punctuation splitting reproduces the token text
concatenation up to boundary trimming: the concatenated segment texts form a
subsequence of the concatenated token texts, and every non-whitespace
character is preserved with its multiplicity — only whitespace trimmed at
segment boundaries is dropped, and nothing is duplicated. -/
theorem c3_segment_reconstruction (tokens : List KaraokeToken) :
    (((punctuationSegments tokens).map (fun s => s.text)).flatten).Sublist
        ((tokens.map (fun t => t.text)).flatten) ∧
      ∀ c, isWsChar c = false →
        (((punctuationSegments tokens).map
            (fun s => s.text)).flatten).count c =
          ((tokens.map (fun t => t.text)).flatten).count c := by
  have hkey : ((punctuationSegments tokens).map (fun s => s.text)).flatten =
      ((groupTexts [] tokens).map trimWs).flatten := by
    rw [punctuationSegments,
      punctLoop_texts tokens [] [] [] none none (fun h => absurd rfl h)]
    simp
  have hflat : (groupTexts [] tokens).flatten =
      (tokens.map (fun t => t.text)).flatten := by
    rw [groupTexts_flatten]
    simp
  constructor
  · rw [hkey, ← hflat]
    exact flatten_map_trim_sublist _
  · intro c hc
    rw [hkey, ← hflat]
    exact count_flatten_map_trim _ c hc

/-- C3 counterexample: a single token whose text starts with a space loses
that space to `trim()`, so the concatenated segment texts differ from the
concatenated token texts. -/
theorem c3_segment_reconstruction_counterexample :
    ((punctuationSegments [⟨[' ', 'a', '.'], 0, 1⟩]).map
        (fun s => s.text)).flatten ≠
      (([⟨[' ', 'a', '.'], 0, 1⟩] :
        List KaraokeToken).map (fun t => t.text)).flatten := by
  decide

/-- C3 witness. -/
theorem c3_segment_reconstruction_witness :
    isWsChar 'a' = false ∧
      (((punctuationSegments [⟨[' ', 'a', '.'], 0, 1⟩]).map
          (fun s => s.text)).flatten).count 'a' =
        ((([⟨[' ', 'a', '.'], 0, 1⟩] : List KaraokeToken).map
          (fun t => t.text)).flatten).count 'a' :=
  ⟨by decide, (c3_segment_reconstruction _).2 'a' (by decide)⟩

theorem foldl_add_eq_sum (f : List Char → Nat) :
    ∀ (l : List (List Char)) (n : Nat),
      l.foldl (fun acc k => acc + f k) n = n + (l.map f).sum := by
  intro l
  induction l with
  | nil => intro n; simp
  | cons k rest ih =>
    intro n
    rw [List.foldl_cons, ih, List.map_cons, List.sum_cons]
    omega

/-- The scoring loop computes the claim's per-keyword occurrence sum. -/
theorem scoreText_eq_claimScore (kws : List (List Char)) (text : List Char) :
    scoreText (kws.map lowerStr) text = claimScore kws text := by
  rw [scoreText, claimScore, foldl_add_eq_sum, List.map_map]
  rw [Nat.zero_add]
  rfl

theorem scoredLE_antisymm_key {a b : ScoredSegment} (h1 : scoredLE a b)
    (h2 : scoredLE b a) :
    a.density = b.density ∧ a.score = b.score ∧ a.index = b.index := by
  have hd : a.density = b.density := by
    rcases h1 with h1 | ⟨hd1, _⟩
    · rcases h2 with h2 | ⟨hd2, _⟩
      · exact absurd (h1.trans h2) (lt_irrefl _)
      · exact hd2.symm
    · exact hd1
  have hs : a.score = b.score := by
    rcases h1 with h1 | ⟨_, h1⟩
    · exact absurd (hd ▸ h1) (lt_irrefl _)
    · rcases h1 with h1 | ⟨hs1, _⟩
      · rcases h2 with h2 | ⟨_, h2⟩
        · exact absurd (hd ▸ h2) (lt_irrefl _)
        · rcases h2 with h2 | ⟨hs2, _⟩
          · exact absurd (h1.trans h2) (lt_irrefl _)
          · exact hs2.symm
      · exact hs1
  refine ⟨hd, hs, ?_⟩
  rcases h1 with h1 | ⟨_, h1⟩
  · exact absurd (hd ▸ h1) (lt_irrefl _)
  · rcases h1 with h1 | ⟨_, hi1⟩
    · exact absurd (hs ▸ h1) (lt_irrefl _)
    · rcases h2 with h2 | ⟨_, h2⟩
      · exact absurd (hd ▸ h2) (lt_irrefl _)
      · rcases h2 with h2 | ⟨_, hi2⟩
        · exact absurd (hs ▸ h2) (lt_irrefl _)
        · exact le_antisymm hi1 hi2

/-- Entries of the scored list are determined by their original index. -/
theorem scored_eq_of_index_eq {segs : List ScriptSegment}
    {normKws : List (List Char)} {a b : ScoredSegment}
    (ha : a ∈ scoreSegments segs normKws)
    (hb : b ∈ scoreSegments segs normKws) (hidx : a.index = b.index) :
    a = b := by
  obtain ⟨_, hseg1, hsc1, hd1⟩ := mem_scoreSegments ha
  obtain ⟨_, hseg2, hsc2, hd2⟩ := mem_scoreSegments hb
  have hsegeq : a.segment = b.segment := by rw [hseg1, hseg2, hidx]
  have hsceq : a.score = b.score := by rw [hsc1, hsc2, hsegeq]
  have hdeq : a.density = b.density := by rw [hd1, hd2, hsegeq, hsceq]
  cases a
  cases b
  simp_all

/-- Two sorted permutations of one another agree when the order is
antisymmetric on their members. -/
theorem sorted_perm_unique {α : Type} {r : α → α → Prop} :
    ∀ {l₁ l₂ : List α}, List.Perm l₁ l₂ → l₁.Sorted r → l₂.Sorted r →
      (∀ a ∈ l₁, ∀ b ∈ l₁, r a b → r b a → a = b) → l₁ = l₂ := by
  intro l₁
  induction l₁ with
  | nil =>
    intro l₂ hp _ _ _
    exact hp.nil_eq
  | cons a t ih =>
    intro l₂ hp hs1 hs2 hanti
    match l₂ with
    | [] => exact absurd hp.symm.nil_eq (by simp)
    | b :: t₂ =>
      have hab : a = b := by
        have haIn : a ∈ b :: t₂ := hp.subset (by simp)
        have hbIn : b ∈ a :: t := hp.symm.subset (by simp)
        rcases List.mem_cons.mp haIn with h | h
        · exact h
        · rcases List.mem_cons.mp hbIn with h2 | h2
          · exact h2.symm
          · have hrba : r b a := (List.sorted_cons.mp hs2).1 a h
            have hrab : r a b := (List.sorted_cons.mp hs1).1 b h2
            exact hanti a (by simp) b (by simp [h2]) hrab hrba
      subst hab
      have ht := ih hp.cons_inv (List.sorted_cons.mp hs1).2
        (List.sorted_cons.mp hs2).2
        (fun x hx y hy => hanti x (by simp [hx]) y (by simp [hy]))
      rw [ht]

/-- C4: every scored entry carries the claim's score (summed case-insensitive
literal occurrence counts) and density (`score / duration` for positive
duration, else 0), and the sorted list is ordered by higher density, then
higher score, then lower original index — a total order that is antisymmetric
on the scored entries, making the sort result the unique sorted permutation
(deterministic). -/
theorem c4_scoring_order (segs : List ScriptSegment)
    (keywords : List (List Char)) :
    (∀ e ∈ sortScored segs (keywords.map lowerStr),
      e.score = claimScore keywords e.segment.text ∧
        e.density = (if 0 < segDur e.segment then
          (e.score : ℚ) / segDur e.segment else 0)) ∧
      List.Perm (sortScored segs (keywords.map lowerStr))
        (scoreSegments segs (keywords.map lowerStr)) ∧
      (sortScored segs (keywords.map lowerStr)).Sorted scoredLE ∧
      (∀ a b : ScoredSegment, scoredLE a b ∨ scoredLE b a) ∧
      (∀ l, List.Perm l (sortScored segs (keywords.map lowerStr)) →
        l.Sorted scoredLE → l = sortScored segs (keywords.map lowerStr)) := by
  refine ⟨?_, sortScored_perm segs _, List.sorted_insertionSort scoredLE _,
    fun a b => IsTotal.total a b, ?_⟩
  · intro e he
    have hmem := (sortScored_perm segs (keywords.map lowerStr)).subset he
    obtain ⟨_, _, hscore, hdens⟩ := mem_scoreSegments hmem
    exact ⟨by rw [hscore, scoreText_eq_claimScore], hdens⟩
  · intro l hperm hsorted
    refine sorted_perm_unique hperm hsorted
      (List.sorted_insertionSort scoredLE _) ?_
    intro a ha b hb hab hba
    obtain ⟨_, _, hidx⟩ := scoredLE_antisymm_key hab hba
    have ha2 := (sortScored_perm segs (keywords.map lowerStr)).subset
      (hperm.subset ha)
    have hb2 := (sortScored_perm segs (keywords.map lowerStr)).subset
      (hperm.subset hb)
    exact scored_eq_of_index_eq ha2 hb2 hidx

/-- C4 witness. -/
theorem c4_scoring_order_witness :
    (⟨dfltSeg, 0, 0, 0⟩ : ScoredSegment) ∈ sortScored [dfltSeg] [] ∧
      (⟨dfltSeg, 0, 0, 0⟩ : ScoredSegment).score =
        claimScore [] (⟨dfltSeg, 0, 0, 0⟩ : ScoredSegment).segment.text := by
  have hmem : (⟨dfltSeg, 0, 0, 0⟩ : ScoredSegment) ∈ sortScored [dfltSeg] [] := by
    norm_num [sortScored, scoreSegments, scoreText, List.insertionSort,
      List.orderedInsert, segDur, dfltSeg]
  exact ⟨hmem, ((c4_scoring_order [dfltSeg] []).1 _ hmem).1⟩

theorem jsSliceGen_chunk (offset : Nat) (m : Int) (hm : 1 ≤ m)
    (s : List Char) (h : offset < s.length) :
    jsSliceGen (offset : Int) ((offset : Int) + m) s =
      (s.drop offset).take m.toNat := by
  rw [jsSliceGen]
  have ha : ¬((offset : Int) < 0) := by omega
  have hb : ¬((offset : Int) + m < 0) := by omega
  simp only [if_neg ha, if_neg hb]
  have hmin : min (offset : Int) (s.length : Int) = (offset : Int) :=
    min_eq_left (by omega)
  rw [hmin, Int.toNat_natCast]
  by_cases hc : (offset : Int) + m ≤ (s.length : Int)
  · rw [min_eq_left hc]
    congr 1
    omega
  · rw [min_eq_right (by omega)]
    have h1 : ((s.length : Int) - (offset : Int)).toNat =
        s.length - offset := by omega
    rw [h1]
    have hlen : (s.drop offset).length = s.length - offset := by simp
    rw [List.take_of_length_le (by omega), List.take_of_length_le (by omega)]

theorem cumLen_zero (ps : List KaraokeToken) : cumLen ps 0 = 0 := by
  simp [cumLen]

theorem cumLen_cons_succ (c : KaraokeToken) (ps : List KaraokeToken)
    (i : Nat) : cumLen (c :: ps) (i + 1) = c.text.length + cumLen ps i := by
  simp [cumLen, List.take_succ_cons]

theorem sliceChunksAux_spec (tok : KaraokeToken) (perChar : ℚ) (m : Int)
    (hm : 1 ≤ m) :
    ∀ (fuel offset : Nat), tok.text.length - offset ≤ fuel →
      (((sliceChunksAux tok perChar m fuel offset).map
          (fun t => t.text)).flatten = tok.text.drop offset) ∧
      (∀ t ∈ sliceChunksAux tok perChar m fuel offset,
        (t.text.length : Int) ≤ m ∧ t.text ≠ []) ∧
      (∀ i, i < (sliceChunksAux tok perChar m fuel offset).length →
        ((sliceChunksAux tok perChar m fuel offset).getD i dfltTok).startTime =
          tok.startTime + perChar * ((offset : ℚ) +
            (cumLen (sliceChunksAux tok perChar m fuel offset) i : ℚ)) ∧
        ((sliceChunksAux tok perChar m fuel offset).getD i dfltTok).endTime =
          tok.startTime + perChar * ((offset : ℚ) +
            (cumLen (sliceChunksAux tok perChar m fuel offset) i : ℚ) +
            ((((sliceChunksAux tok perChar m fuel offset).getD
              i dfltTok).text.length : ℚ)))) := by
  intro fuel
  induction fuel with
  | zero =>
    intro offset hfuel
    have hoff : tok.text.length ≤ offset := by omega
    refine ⟨?_, by simp [sliceChunksAux], by simp [sliceChunksAux]⟩
    simp [sliceChunksAux, List.drop_eq_nil_of_le hoff]
  | succ n ih =>
    intro offset hfuel
    by_cases ho : offset < tok.text.length
    · have hchunk : jsSliceGen (offset : Int) ((offset : Int) + m) tok.text =
        (tok.text.drop offset).take m.toNat := jsSliceGen_chunk offset m hm _ ho
      have hdroplen : (tok.text.drop offset).length =
          tok.text.length - offset := by simp
      have hclen : (jsSliceGen (offset : Int) ((offset : Int) + m)
          tok.text).length = min m.toNat (tok.text.length - offset) := by
        rw [hchunk, List.length_take, hdroplen]
      have hclen1 : 1 ≤ (jsSliceGen (offset : Int) ((offset : Int) + m)
          tok.text).length := by
        rw [hclen]; omega
      have hunf : sliceChunksAux tok perChar m (n + 1) offset =
          ⟨jsSliceGen (offset : Int) ((offset : Int) + m) tok.text,
            tok.startTime + perChar * (offset : ℚ),
            tok.startTime + perChar * ((offset : ℚ) +
              ((jsSliceGen (offset : Int) ((offset : Int) + m)
                tok.text).length : ℚ))⟩ ::
            sliceChunksAux tok perChar m n
              (offset + (jsSliceGen (offset : Int) ((offset : Int) + m)
                tok.text).length) := by
        rw [sliceChunksAux, if_pos ho]
      obtain ⟨iha, ihb, ihc⟩ := ih
        (offset + (jsSliceGen (offset : Int) ((offset : Int) + m)
          tok.text).length) (by omega)
      refine ⟨?_, ?_, ?_⟩
      · rw [hunf]
        simp only [List.map_cons, List.flatten_cons]
        rw [iha]
        have hdd : tok.text.drop (offset + (jsSliceGen (offset : Int)
            ((offset : Int) + m) tok.text).length) =
            (tok.text.drop offset).drop ((jsSliceGen (offset : Int)
              ((offset : Int) + m) tok.text).length) := by
          rw [List.drop_drop]
        rw [hdd, hchunk]
        by_cases hk : m.toNat ≤ (tok.text.drop offset).length
        · have hlt : ((tok.text.drop offset).take m.toNat).length =
              m.toNat := by
            rw [List.length_take]; omega
          rw [hlt]
          exact List.take_append_drop _ _
        · have htake : (tok.text.drop offset).take m.toNat =
              tok.text.drop offset := List.take_of_length_le (by omega)
          rw [htake]
          simp
          omega
      · rw [hunf]
        intro t ht
        rcases List.mem_cons.mp ht with h | h
        · subst h
          refine ⟨?_, ?_⟩
          · simp only []
            rw [hchunk, List.length_take]
            omega
          · simp only []
            intro hc
            rw [hc] at hclen1
            simp at hclen1
        · exact ihb t h
      · intro i hlen
        rw [hunf] at hlen ⊢
        match i with
        | 0 =>
          refine ⟨?_, ?_⟩
          · simp [cumLen_zero]
          · simp [cumLen_zero]
        | Nat.succ j =>
          have hlen2 : j < (sliceChunksAux tok perChar m n
              (offset + (jsSliceGen (offset : Int) ((offset : Int) + m)
                tok.text).length)).length := by
            simpa using hlen
          obtain ⟨hs, he⟩ := ihc j hlen2
          refine ⟨?_, ?_⟩
          · rw [List.getD_cons_succ, hs, cumLen_cons_succ]
            push_cast
            ring
          · rw [List.getD_cons_succ, he, cumLen_cons_succ]
            push_cast
            ring
    · have hunf : sliceChunksAux tok perChar m (n + 1) offset = [] := by
        rw [sliceChunksAux, if_neg ho]
      rw [hunf]
      refine ⟨?_, by simp, by simp⟩
      simp [List.drop_eq_nil_of_le (by omega : tok.text.length ≤ offset)]

/-- C6: an over-budget token is sliced into non-empty chunks of at most the
budget's length; the chunk texts concatenate back to the original token text,
and the chunk at character offset `o` (the total length of the chunks before
it) spans `tokenStart + perChar·o` to `tokenStart + perChar·(o + chunkLen)`
with `perChar = tokenDuration / tokenCharCount`. -/
theorem c6_token_chunking (tok : KaraokeToken) (m : Int) (hm : 1 ≤ m)
    (hlong : m < (tok.text.length : Int)) :
    (((splitTokenByMaxChars tok m).map (fun t => t.text)).flatten =
        tok.text) ∧
      (∀ t ∈ splitTokenByMaxChars tok m,
        (t.text.length : Int) ≤ m ∧ t.text ≠ []) ∧
      (∀ i, i < (splitTokenByMaxChars tok m).length →
        ((splitTokenByMaxChars tok m).getD i dfltTok).startTime =
          tok.startTime +
            ((tok.endTime - tok.startTime) / (tok.text.length : ℚ)) *
              (cumLen (splitTokenByMaxChars tok m) i : ℚ) ∧
        ((splitTokenByMaxChars tok m).getD i dfltTok).endTime =
          tok.startTime +
            ((tok.endTime - tok.startTime) / (tok.text.length : ℚ)) *
              ((cumLen (splitTokenByMaxChars tok m) i : ℚ) +
                (((splitTokenByMaxChars tok m).getD
                  i dfltTok).text.length : ℚ))) := by
  have h1 : ¬((tok.text.length : Int) ≤ m) := by omega
  have hpos : 0 < tok.text.length := by omega
  have hunf : splitTokenByMaxChars tok m =
      sliceChunksAux tok
        ((tok.endTime - tok.startTime) / (tok.text.length : ℚ)) m
        tok.text.length 0 := by
    rw [splitTokenByMaxChars, if_neg h1]
    dsimp only
    rw [if_pos hpos]
  obtain ⟨ha, hb, hc⟩ := sliceChunksAux_spec tok
    ((tok.endTime - tok.startTime) / (tok.text.length : ℚ)) m hm
    tok.text.length 0 (by omega)
  rw [hunf]
  refine ⟨by rw [ha, List.drop_zero], hb, ?_⟩
  intro i hi
  obtain ⟨hs, he⟩ := hc i hi
  refine ⟨?_, ?_⟩
  · rw [hs]
    ring
  · rw [he]
    ring

/-- C6 witness: the token `abc` over `[0, 3]` with budget 2 reconstructs its
text from the chunks. -/
theorem c6_token_chunking_witness :
    (1 : Int) ≤ 2 ∧ (2 : Int) < (((⟨['a', 'b', 'c'], 0, 3⟩ :
        KaraokeToken)).text.length : Int) ∧
      ((splitTokenByMaxChars ⟨['a', 'b', 'c'], 0, 3⟩ 2).map
        (fun t => t.text)).flatten = ['a', 'b', 'c'] :=
  ⟨by decide, by decide,
    (c6_token_chunking ⟨['a', 'b', 'c'], 0, 3⟩ 2 (by decide) (by decide)).1⟩

theorem splitLongWordAux_spec (m : Int) (hm : 1 ≤ m) :
    ∀ (fuel : Nat) (rem : List Char), ∀ p ∈ splitLongWordAux m fuel rem,
      (p.length : Int) ≤ m ∧ ∀ c ∈ p, c ∈ rem := by
  intro fuel
  induction fuel with
  | zero => intro rem p hp; simp [splitLongWordAux] at hp
  | succ n ih =>
    intro rem p hp
    rw [splitLongWordAux] at hp
    by_cases hg : (rem.length : Int) > m
    · rw [if_pos hg] at hp
      rcases List.mem_cons.mp hp with h | h
      · subst h
        have hup : jsSliceUpTo m rem = rem.take m.toNat := by
          rw [jsSliceUpTo, if_pos (by omega)]
        rw [hup]
        refine ⟨by rw [List.length_take]; omega, ?_⟩
        intro c hc
        exact List.mem_of_mem_take hc
      · obtain ⟨h1, h2⟩ := ih (jsSliceFrom m rem) p h
        refine ⟨h1, ?_⟩
        intro c hc
        have := h2 c hc
        rw [jsSliceFrom, if_pos (by omega)] at this
        exact List.mem_of_mem_drop this
    · rw [if_neg hg] at hp
      by_cases hr : rem.length > 0
      · rw [if_pos hr] at hp
        rcases List.mem_singleton.mp hp with h
        subst h
        exact ⟨by omega, fun c hc => hc⟩
      · rw [if_neg hr] at hp
        simp at hp

theorem splitLongWordAux_flatten (m : Int) (hm : 1 ≤ m) :
    ∀ (fuel : Nat) (rem : List Char), rem.length ≤ fuel →
      (splitLongWordAux m fuel rem).flatten = rem := by
  intro fuel
  induction fuel with
  | zero =>
    intro rem hr
    have : rem = [] := List.eq_nil_of_length_eq_zero (by omega)
    subst this
    simp [splitLongWordAux]
  | succ n ih =>
    intro rem hr
    rw [splitLongWordAux]
    by_cases hg : (rem.length : Int) > m
    · rw [if_pos hg]
      have hup : jsSliceUpTo m rem = rem.take m.toNat := by
        rw [jsSliceUpTo, if_pos (by omega)]
      have hfrom : jsSliceFrom m rem = rem.drop m.toNat := by
        rw [jsSliceFrom, if_pos (by omega)]
      rw [List.flatten_cons, hup, hfrom, ih _ (by simp; omega)]
      exact List.take_append_drop _ _
    · rw [if_neg hg]
      by_cases hr2 : rem.length > 0
      · rw [if_pos hr2]; simp
      · rw [if_neg hr2]
        have : rem = [] := List.eq_nil_of_length_eq_zero (by omega)
        subst this
        rfl

/-- With a positive budget the `splitLongWord` loop terminates within
`remaining.length` iterations and computes the fueled embedding's value. -/
theorem slwRun_eq (m : Int) (hm : 1 ≤ m) :
    ∀ (fuel : Nat) (rem : List Char) (parts : List (List Char)),
      rem.length ≤ fuel →
      slwRun m fuel (parts, rem) =
        some (parts ++ splitLongWordAux m fuel rem) := by
  intro fuel
  induction fuel with
  | zero =>
    intro rem parts hr
    have hnil : rem = [] := List.eq_nil_of_length_eq_zero (by omega)
    subst hnil
    rw [slwRun, slwStep]
    have hg : ¬((([] : List Char).length : Int) > m) := by simp; omega
    rw [if_neg hg]
    simp [splitLongWordAux]
  | succ n ih =>
    intro rem parts hr
    rw [slwRun, slwStep, splitLongWordAux]
    by_cases hg : (rem.length : Int) > m
    · rw [if_pos hg]
      simp only []
      have hfrom : jsSliceFrom m rem = rem.drop m.toNat := by
        rw [jsSliceFrom, if_pos (by omega)]
      have hlen : (jsSliceFrom m rem).length ≤ n := by
        rw [hfrom]
        simp
        omega
      rw [ih (jsSliceFrom m rem) (parts ++ [jsSliceUpTo m rem]) hlen]
      simp [hg]
    · simp [hg]

/-- With a non-positive budget and a non-empty word, the `splitLongWord` loop
never exits: its guard stays true and `remaining` stays non-empty forever. -/
theorem slwRun_diverges (m : Int) (hm : m ≤ 0) :
    ∀ (fuel : Nat) (rem : List Char) (parts : List (List Char)),
      rem ≠ [] → slwRun m fuel (parts, rem) = none := by
  intro fuel
  induction fuel with
  | zero =>
    intro rem parts hne
    have hlen : 0 < rem.length := List.length_pos.mpr hne
    have hgt : (rem.length : Int) > m := by
      have h1 : (1 : Int) ≤ (rem.length : Int) := by exact_mod_cast hlen
      omega
    rw [slwRun, slwStep, if_pos hgt]
  | succ n ih =>
    intro rem parts hne
    have hlen : 0 < rem.length := List.length_pos.mpr hne
    have hgt : (rem.length : Int) > m := by
      have h1 : (1 : Int) ≤ (rem.length : Int) := by exact_mod_cast hlen
      omega
    rw [slwRun, slwStep, if_pos hgt]
    simp only []
    apply ih
    intro hc
    have hlen2 := congrArg List.length hc
    rw [jsSliceFrom] at hlen2
    simp only [List.length_nil] at hlen2
    by_cases h0 : (0 : Int) ≤ m
    · have hm0 : m.toNat = 0 := by omega
      rw [if_pos h0, hm0, List.drop_zero] at hlen2
      omega
    · rw [if_neg h0, List.length_drop] at hlen2
      omega

/-- C10: `splitLongWord` terminates for every word when `maxLength ≥ 1`,
returning chunks that concatenate back to the word; with `maxLength ≤ 0` and
a non-empty word its loop never exits; the `maxChars ≤ 0` guard of
`splitSegmentsByMaxChars` only bypasses resplitting (returning the input
unchanged, so wrapping still runs on the same unguarded budget); and the
tool's `subtitleMaxLineLength` defaults to 42 with no positivity guard. -/
theorem c10_split_long_word :
    (∀ (w : List Char) (m : Int), 1 ≤ m →
      slwRun m w.length ([], w) = some (splitLongWord w m) ∧
        (splitLongWord w m).flatten = w) ∧
      (∀ (w : List Char) (m : Int), w ≠ [] → m ≤ 0 →
        ∀ (fuel : Nat) (parts : List (List Char)),
          slwRun m fuel (parts, w) = none) ∧
      (∀ (segs : List ScriptSegment) (m : Int), m ≤ 0 →
        splitSegmentsByMaxChars segs m = segs) ∧
      resolveSubtitleMaxLineLength none = 42 := by
  refine ⟨?_, ?_, ?_, rfl⟩
  · intro w m hm
    constructor
    · rw [splitLongWord]
      rw [slwRun_eq m hm w.length w [] (le_refl _)]
      simp
    · rw [splitLongWord]
      exact splitLongWordAux_flatten m hm w.length w (le_refl _)
  · intro w m hne hm fuel parts
    exact slwRun_diverges m hm fuel w parts hne
  · intro segs m hm
    rw [splitSegmentsByMaxChars, if_pos hm]

/-- C10 witness. -/
theorem c10_split_long_word_witness :
    (1 : Int) ≤ 1 ∧
      slwRun 1 (['a', 'b'].length) ([], ['a', 'b']) =
        some (splitLongWord ['a', 'b'] 1) ∧
      (splitLongWord ['a', 'b'] 1).flatten = ['a', 'b'] ∧
      (['a'] : List Char) ≠ [] ∧ (0 : Int) ≤ 0 ∧
      slwRun 0 5 ([], ['a']) = none :=
  ⟨by decide,
    (c10_split_long_word.1 ['a', 'b'] 1 (by decide)).1,
    (c10_split_long_word.1 ['a', 'b'] 1 (by decide)).2,
    by decide, by decide,
    c10_split_long_word.2.1 ['a'] 0 (by decide) (by decide) 5 []⟩

theorem mem_collapseAux :
    ∀ (s : List Char) (b : Bool), ∀ c ∈ collapseAux b s,
      isWsChar c = true → c = ' ' := by
  intro s
  induction s with
  | nil => intro b c hc; simp [collapseAux] at hc
  | cons a rest ih =>
    intro b c hc hw
    rw [collapseAux] at hc
    by_cases ha : isWsChar a
    · rw [if_pos ha] at hc
      cases b with
      | true => exact ih true c (by simpa using hc) hw
      | false =>
        rcases List.mem_cons.mp (by simpa using hc) with h | h
        · exact h
        · exact ih true c h hw
    · rw [if_neg ha] at hc
      rcases List.mem_cons.mp hc with h | h
      · subst h
        exact absurd hw (by simpa using ha)
      · exact ih false c h hw

theorem newline_not_mem_normalized (t : List Char) :
    '\n' ∉ trimWs (collapseWs t) := by
  intro hmem
  have h2 : '\n' ∈ collapseWs t := (trimWs_sublist _).subset hmem
  have h3 := mem_collapseAux t false '\n' h2 (by decide)
  exact absurd h3 (by decide)

theorem mem_splitChar (sep : Char) :
    ∀ (s : List Char), ∀ piece ∈ splitChar sep s, ∀ c ∈ piece, c ∈ s := by
  intro s
  induction s with
  | nil =>
    intro piece hp c hc
    rw [splitChar] at hp
    rcases List.mem_singleton.mp hp with h
    subst h
    simp at hc
  | cons a rest ih =>
    intro piece hp c hc
    rw [splitChar] at hp
    by_cases ha : a = sep
    · rw [if_pos ha] at hp
      rcases List.mem_cons.mp hp with h | h
      · subst h; simp at hc
      · exact List.mem_cons_of_mem _ (ih piece h c hc)
    · rw [if_neg ha] at hp
      cases hsp : splitChar sep rest with
      | nil =>
        rw [hsp] at hp
        rcases List.mem_singleton.mp hp with h
        subst h
        rcases List.mem_singleton.mp hc with h2
        subst h2
        exact List.mem_cons_self _ _
      | cons p ps =>
        rw [hsp] at hp
        rcases List.mem_cons.mp hp with h | h
        · subst h
          rcases List.mem_cons.mp hc with h2 | h2
          · subst h2; exact List.mem_cons_self _ _
          · have hpm : p ∈ splitChar sep rest := by
              rw [hsp]; exact List.mem_cons_self _ _
            exact List.mem_cons_of_mem _ (ih p hpm c h2)
        · have hpm : piece ∈ splitChar sep rest := by
            rw [hsp]; exact List.mem_cons_of_mem _ h
          exact List.mem_cons_of_mem _ (ih piece hpm c hc)

theorem splitChar_eq_single (sep : Char) :
    ∀ (s : List Char), sep ∉ s → splitChar sep s = [s] := by
  intro s
  induction s with
  | nil => intro _; rfl
  | cons a rest ih =>
    intro h
    rw [splitChar,
      if_neg (by intro hc; subst hc; exact h (List.mem_cons_self _ _)),
      ih (fun hc => h (List.mem_cons_of_mem _ hc))]

theorem splitChar_append_sep (sep : Char) :
    ∀ (x s : List Char), sep ∉ x →
      splitChar sep (x ++ sep :: s) = x :: splitChar sep s := by
  intro x
  induction x with
  | nil =>
    intro s _
    rw [List.nil_append, splitChar, if_pos rfl]
  | cons a x2 ih =>
    intro s hx
    have ha : ¬(a = sep) := by
      intro hc
      subst hc
      exact hx (List.mem_cons_self _ _)
    rw [List.cons_append, splitChar, if_neg ha,
      ih s (fun hc => hx (List.mem_cons_of_mem _ hc))]

theorem splitChar_intercalate (c : Char) :
    ∀ (lines : List (List Char)), lines ≠ [] → (∀ l ∈ lines, c ∉ l) →
      splitChar c (List.intercalate [c] lines) = lines := by
  intro lines
  induction lines with
  | nil => intro h; exact absurd rfl h
  | cons x rest ih =>
    intro _ hnl
    cases rest with
    | nil =>
      have hsingle : List.intercalate [c] [x] = x := by
        simp [List.intercalate, List.intersperse]
      rw [hsingle]
      exact splitChar_eq_single c x (hnl x (List.mem_cons_self _ _))
    | cons y rest2 =>
      have hstep : List.intercalate [c] (x :: y :: rest2) =
          x ++ c :: List.intercalate [c] (y :: rest2) := by
        simp [List.intercalate, List.intersperse]
      rw [hstep,
        splitChar_append_sep c x _ (hnl x (List.mem_cons_self _ _)),
        ih (by simp) (fun l hl => hnl l (List.mem_cons_of_mem _ hl))]

theorem wrapStep_inv (m : Int) (hm : 1 ≤ m)
    (st : List (List Char) × List Char) (word : List Char)
    (hword : '\n' ∉ word)
    (h1 : ∀ line ∈ st.1, (line.length : Int) ≤ m ∧ '\n' ∉ line)
    (h2 : (st.2.length : Int) ≤ m ∧ '\n' ∉ st.2) :
    (∀ line ∈ (wrapStep m st word).1,
      (line.length : Int) ≤ m ∧ '\n' ∉ line) ∧
      ((wrapStep m st word).2.length : Int) ≤ m ∧
      '\n' ∉ (wrapStep m st word).2 := by
  have hlong : ∀ p ∈ splitLongWord word m,
      (p.length : Int) ≤ m ∧ '\n' ∉ p := by
    intro p hp
    rw [splitLongWord] at hp
    obtain ⟨ha, hb⟩ := splitLongWordAux_spec m hm word.length word p hp
    exact ⟨ha, fun hc => hword (hb _ hc)⟩
  rw [wrapStep]
  by_cases hc : st.2 = []
  · rw [if_pos hc]
    by_cases hw : (word.length : Int) > m
    · rw [if_pos hw]
      refine ⟨?_, by simp; omega, by simp⟩
      intro line hl
      rcases List.mem_append.mp hl with h | h
      · exact h1 line h
      · exact hlong line h
    · rw [if_neg hw]
      exact ⟨h1, by show ((word.length : Int)) ≤ m; omega, hword⟩
  · rw [if_neg hc]
    by_cases hf : (st.2.length : Int) + 1 + word.length ≤ m
    · rw [if_pos hf]
      refine ⟨h1, ?_, ?_⟩
      · simp only [List.length_append, List.length_cons]
        push_cast
        omega
      · intro hmem
        rcases List.mem_append.mp hmem with h | h
        · exact h2.2 h
        · rcases List.mem_cons.mp h with h3 | h3
          · exact absurd h3.symm (by decide)
          · exact hword h3
    · rw [if_neg hf]
      by_cases hw : (word.length : Int) > m
      · rw [if_pos hw]
        refine ⟨?_, by simp; omega, by simp⟩
        intro line hl
        rcases List.mem_append.mp hl with h | h
        · rcases List.mem_append.mp h with h4 | h4
          · exact h1 line h4
          · rcases List.mem_singleton.mp h4 with h5
            subst h5
            exact h2
        · exact hlong line h
      · rw [if_neg hw]
        refine ⟨?_, by show ((word.length : Int)) ≤ m; omega, hword⟩
        intro line hl
        rcases List.mem_append.mp hl with h | h
        · exact h1 line h
        · rcases List.mem_singleton.mp h with h5
          subst h5
          exact h2

theorem foldl_wrapStep_inv (m : Int) (hm : 1 ≤ m) :
    ∀ (words : List (List Char)) (st : List (List Char) × List Char),
      (∀ w ∈ words, '\n' ∉ w) →
      (∀ line ∈ st.1, (line.length : Int) ≤ m ∧ '\n' ∉ line) →
      ((st.2.length : Int) ≤ m ∧ '\n' ∉ st.2) →
      (∀ line ∈ (words.foldl (wrapStep m) st).1,
        (line.length : Int) ≤ m ∧ '\n' ∉ line) ∧
        (((words.foldl (wrapStep m) st).2.length : Int) ≤ m ∧
          '\n' ∉ (words.foldl (wrapStep m) st).2) := by
  intro words
  induction words with
  | nil => intro st _ h1 h2; exact ⟨h1, h2⟩
  | cons w rest ih =>
    intro st hws h1 h2
    rw [List.foldl_cons]
    obtain ⟨g1, g2⟩ := wrapStep_inv m hm st w
      (hws w (List.mem_cons_self _ _)) h1 h2
    exact ih (wrapStep m st w) (fun v hv => hws v (List.mem_cons_of_mem _ hv))
      g1 g2

theorem wrapLines_spec (t : List Char) (m : Int) (hm : 1 ≤ m) :
    ∀ line ∈ wrapLines t m, (line.length : Int) ≤ m ∧ '\n' ∉ line := by
  intro line hl
  rw [wrapLines] at hl
  by_cases h0 : trimWs (collapseWs t) = []
  · rw [if_pos h0] at hl
    simp at hl
  · rw [if_neg h0] at hl
    by_cases hws : (trimWs (collapseWs t)).any isWsChar
    · rw [if_pos hws] at hl
      have hwords : ∀ w ∈ splitChar ' ' (trimWs (collapseWs t)),
          '\n' ∉ w := by
        intro w hw hc
        exact newline_not_mem_normalized t
          (mem_splitChar ' ' _ w hw '\n' hc)
      obtain ⟨g1, g2⟩ := foldl_wrapStep_inv m hm
        (splitChar ' ' (trimWs (collapseWs t))) ([], []) hwords
        (by simp) (by simp; omega)
      rcases List.mem_append.mp hl with h | h
      · exact g1 line h
      · by_cases hcur : ((splitChar ' ' (trimWs (collapseWs t))).foldl
            (wrapStep m) ([], [])).2 ≠ []
        · rw [if_pos hcur] at h
          rcases List.mem_singleton.mp h with h5
          subst h5
          exact g2
        · rw [if_neg hcur] at h
          simp at h
    · rw [if_neg hws] at hl
      rw [splitLongWord] at hl
      obtain ⟨ha, hb⟩ := splitLongWordAux_spec m hm _ _ line hl
      exact ⟨ha, fun hc =>
        newline_not_mem_normalized t (hb '\n' hc)⟩

/-- C7: for every positive `maxLineLength` and every cue text, each individual
line of the wrapped subtitle text has length at most `maxLineLength`; a single
word longer than the budget is hard-split into chunks of at most the budget's
length whose concatenation is the word, never emitted as an over-long line. -/
theorem c7_line_length (text : List Char) (m : Int) (hm : 1 ≤ m) :
    (∀ line ∈ splitChar '\n' (wrapSubtitleText text m),
      (line.length : Int) ≤ m) ∧
      (∀ w : List Char, m < (w.length : Int) →
        (splitLongWord w m).flatten = w ∧
          ∀ p ∈ splitLongWord w m, (p.length : Int) ≤ m) := by
  constructor
  · intro line hl
    rw [wrapSubtitleText] at hl
    by_cases he : wrapLines text m = []
    · rw [he] at hl
      have : List.intercalate ['\n'] ([] : List (List Char)) = [] := rfl
      rw [this, splitChar] at hl
      rcases List.mem_singleton.mp hl with h
      subst h
      simp
      omega
    · rw [splitChar_intercalate '\n' (wrapLines text m) he
        (fun l hlm => (wrapLines_spec text m hm l hlm).2)] at hl
      exact (wrapLines_spec text m hm line hl).1
  · intro w _
    refine ⟨?_, ?_⟩
    · rw [splitLongWord]
      exact splitLongWordAux_flatten m hm w.length w (le_refl _)
    · intro p hp
      rw [splitLongWord] at hp
      exact (splitLongWordAux_spec m hm w.length w p hp).1

/-- C7 witness: wrapping `ab cd` at width 2 yields the line `ab`. -/
theorem c7_line_length_witness :
    (1 : Int) ≤ 2 ∧
      ['a', 'b'] ∈ splitChar '\n'
        (wrapSubtitleText ['a', 'b', ' ', 'c', 'd'] 2) ∧
      ((['a', 'b'] : List Char).length : Int) ≤ 2 :=
  ⟨by decide, by decide,
    (c7_line_length ['a', 'b', ' ', 'c', 'd'] 2 (by decide)).1
      ['a', 'b'] (by decide)⟩
